import Mathlib

/-
  Verification development for the Titan blob-store GC core:
  * `BlobFileIterator` — the single-file sequential scanner
    (src/unnamed/part_000, `BlobFileIterator::*`),
  * `BlobFileMergeIterator` — the k-way merge scanner
    (src/unnamed/part_000, `BlobFileMergeIterator::*`),
  * `BasicBlobGCPicker` — the GC candidate picker
    (src/src/blob_gc_picker.cc, `BasicBlobGCPicker::PickBlobGC`).

  The C++ is embedded shallowly: machine integers become `Nat`
  (the quantities involved are file offsets and sizes, and the source never
  relies on wrap-around), `double` scores become `Rat`, statuses become an
  explicit inductive, and the storage layer (`RandomAccessFileReader`) is
  replaced by a pure description of the blob file's record region.
-/

namespace titandb

/-! ### Constants of the on-disk format

`kRecordHeaderSize`, `kBlockTrailerSize`, `BlobFileFooter::kEncodedLength`
are declared in headers that are not part of the sources (blob_format.h);
their values follow the spec and the layout comment in
`BlobFileIterator::Init` ("compression dict + kBlockTrailerSize(5)",
"footer(kEncodedLength: 32)") and the record-header description
(checksum 4 bytes + payload length 4 bytes + compression tag 1 byte). -/

/-- Modelled from the spec: fixed size of a record header
(checksum + 4-byte payload length + compression metadata). -/
def kRecordHeaderSize : ℕ := 9

/-- Modelled from the spec: fixed per-block trailer size
(named in the layout comment of `BlobFileIterator::Init`). -/
def kBlockTrailerSize : ℕ := 5

/-- Modelled from the spec: `BlobFileFooter::kEncodedLength`
(named in the layout comment of `BlobFileIterator::Init`). -/
def kFooterEncodedLength : ℕ := 32

/-- Modelled from the spec: page alignment granularity of the read-ahead
window (`kDefaultPageSize`, a class constant of `BlobFileIterator` whose
header is not among the sources). -/
def kDefaultPageSize : ℕ := 4096

/-- Modelled from the spec: minimum size of the adaptive read-ahead window. -/
def kMinReadaheadSize : ℕ := 4 * 1024

/-- Modelled from the spec: maximum size of the adaptive read-ahead window. -/
def kMaxReadaheadSize : ℕ := 256 * 1024

/-- `Roundup(x, y)` from util.h: round `x` up to the next multiple of `y`. -/
def Roundup (x y : ℕ) : ℕ := (x + y - 1) / y * y

/-- The rocksdb `Status` values the embedded code distinguishes. -/
inductive TStatus where
  | ok
  | ioError
  | corruption
  | invalidArgument
  | aborted
deriving DecidableEq, Repr

/-- A decoded blob record: the `{key, value}` view produced by the record
decoder.  Keys and values are abstracted to naturals; the injected key
comparator of the merge scanner becomes the natural order on keys. -/
structure BlobRecord where
  key : ℕ
  value : ℕ
deriving DecidableEq, Repr

/-- One slot of a blob file's record region: either a hole-punched block
(its record header reads back with a zero payload-length field) or a live
record together with the payload length stored in its header. -/
inductive Slot where
  | hole
  | live (r : BlobRecord) (payloadSize : ℕ)
deriving DecidableEq, Repr

/-- The payload-length field read back from the record header at the start
of a slot (`*(uint32_t*)(header_buffer.get() + 4)` in `GetBlobRecord`);
zero exactly for hole-punched slots. -/
def sizeField : Slot → ℕ
  | Slot.hole => 0
  | Slot.live _ sz => sz

/-- A pure description of one blob file as the scanner sees it: the
quantities decoded from its header and footer, success flags for each
fallible read/decode step of `Init` (reads are deterministic, so a failing
step fails every time it is retried), the record-region layout as a list
of slots, and the column family's `min_blob_size` option which the
read-ahead heuristic consults. -/
structure BlobFile where
  /-- `blob_file_header.size()` — the encoded length of the header. -/
  header_size : ℕ
  /-- `blob_file_header.block_size`; 0 disables block alignment. -/
  block_size : ℕ
  file_size : ℕ
  /-- whether `blob_file_footer.meta_index_handle.IsNull()`. -/
  meta_index_null : Bool
  /-- `blob_file_footer.meta_index_handle.size()`. -/
  meta_index_size : ℕ
  /-- whether the header flags carry `kHasUncompressionDictionary`. -/
  hasDict : Bool
  /-- `uncompression_dict_->GetRawDict().size()`. -/
  dict_raw_size : ℕ
  headerReadOk : Bool
  headerDecodeOk : Bool
  footerReadOk : Bool
  footerDecodeOk : Bool
  dictFetchOk : Bool
  /-- the record region contents, in file order. -/
  slots : List Slot
  /-- `titan_cf_options_.min_blob_size` (held by the iterator). -/
  min_blob_size : ℕ
deriving DecidableEq, Repr

/-- The byte extent a slot occupies in the record region: a hole-punched
block is skipped by advancing exactly `block_size`; a live record occupies
header + payload, rounded up to the alignment boundary when configured. -/
def slotExtent (f : BlobFile) : Slot → ℕ
  | Slot.hole => f.block_size
  | Slot.live _ sz =>
      let len := kRecordHeaderSize + sz
      if f.block_size ≠ 0 then Roundup len f.block_size else len

/-- Total extent of a list of slots. -/
def sumExt (f : BlobFile) (l : List Slot) : ℕ := (l.map (slotExtent f)).sum

/-- First record-region offset, as both `SeekToFirst` and `IterateForPrev`
compute it: the header size, rounded up to `block_size` when alignment is
configured. -/
def recStart (f : BlobFile) : ℕ :=
  if f.block_size ≠ 0 then Roundup f.header_size f.block_size else f.header_size

/-- The end-of-record-region boundary as `Init` computes it:
`file_size - kEncodedLength`, further reduced by the meta-index block and
the shared-dictionary block (each plus a block trailer) when present. -/
def endOfBlobRecord (f : BlobFile) : ℕ :=
  let e := f.file_size - kFooterEncodedLength
  let e := if ¬ f.meta_index_null then e - (f.meta_index_size + kBlockTrailerSize) else e
  if f.hasDict then e - (f.dict_raw_size + kBlockTrailerSize) else e

/-- Find the slot starting exactly at offset `o`, walking the layout from
`start`. -/
def slotAtAux (f : BlobFile) : ℕ → List Slot → ℕ → Option Slot
  | _, [], _ => none
  | start, s :: rest, o =>
      if o = start then some s
      else slotAtAux f (start + slotExtent f s) rest o

/-- The slot starting exactly at file offset `o`, if any.  A record-header
read at any other offset returns bytes that are not a valid record header
(file header bytes or the interior of a record), which the external
decoder rejects; the embedding models such a read-and-decode as a
corruption failure. -/
def slotAt (f : BlobFile) (o : ℕ) : Option Slot :=
  slotAtAux f (recStart f) f.slots o

/-- The mutable state of a `BlobFileIterator` (member variables of the C++
class, keeping their names). -/
structure BlobFileIterator where
  iterate_offset_ : ℕ
  valid_ : Bool
  status_ : TStatus
  init_ : Bool
  header_size_ : ℕ
  end_of_blob_record_ : ℕ
  block_size_ : ℕ
  cur_blob_record_ : BlobRecord
  cur_record_offset_ : ℕ
  cur_record_size_ : ℕ
  readahead_begin_offset_ : ℕ
  readahead_end_offset_ : ℕ
  readahead_size_ : ℕ
deriving DecidableEq, Repr

/-- A freshly constructed iterator (the in-class member initializers of
`BlobFileIterator`). -/
def initIter : BlobFileIterator where
  iterate_offset_ := 0
  valid_ := false
  status_ := TStatus.ok
  init_ := false
  header_size_ := 0
  end_of_blob_record_ := 0
  block_size_ := 0
  cur_blob_record_ := ⟨0, 0⟩
  cur_record_offset_ := 0
  cur_record_size_ := 0
  readahead_begin_offset_ := 0
  readahead_end_offset_ := 0
  readahead_size_ := kMinReadaheadSize

namespace BlobFileIterator

/-- `BlobFileIterator::Init`.  Returns the updated state and the C++
return value.  Note the source checks the status after the header read,
the header decode, the footer read and the dictionary fetch, but not
after the footer decode: a footer decode failure merely leaves a non-ok
`status_` behind while `Init` keeps going and returns `true`. -/
def Init (f : BlobFile) (it : BlobFileIterator) : BlobFileIterator × Bool :=
  -- status_ = file_->Read(0, kV3EncodedLength, ...)
  if ¬ f.headerReadOk then ({ it with status_ := TStatus.ioError }, false)
  else
  -- status_ = DecodeInto(slice, &blob_file_header, ...)
  if ¬ f.headerDecodeOk then ({ it with status_ := TStatus.corruption }, false)
  else
  let it := { it with status_ := TStatus.ok, header_size_ := f.header_size }
  -- status_ = file_->Read(file_size_ - kEncodedLength, ...)
  if ¬ f.footerReadOk then ({ it with status_ := TStatus.ioError }, false)
  else
  -- status_ = blob_file_footer.DecodeFrom(&slice);   (status not checked)
  let it := { it with status_ := if f.footerDecodeOk then TStatus.ok else TStatus.corruption }
  let e := f.file_size - kFooterEncodedLength
  let e := if ¬ f.meta_index_null then e - (f.meta_index_size + kBlockTrailerSize) else e
  let it := { it with end_of_blob_record_ := e }
  if f.hasDict then
    -- status_ = InitUncompressionDict(...)
    if ¬ f.dictFetchOk then ({ it with status_ := TStatus.corruption }, false)
    else
      let e2 := it.end_of_blob_record_ - (f.dict_raw_size + kBlockTrailerSize)
      let it := { it with status_ := TStatus.ok, end_of_blob_record_ := e2 }
      ({ it with block_size_ := f.block_size, init_ := true }, true)
  else
    ({ it with block_size_ := f.block_size, init_ := true }, true)

/-- `BlobFileIterator::Valid`: `valid_ && status().ok()`. -/
def Valid (it : BlobFileIterator) : Bool :=
  it.valid_ && it.status_ == TStatus.ok

/-- The inner doubling loop of the read-ahead maintenance:
`while (readahead_end_offset_ + readahead_size_ <= min_blob_size &&`
`       readahead_size_ < kMaxReadaheadSize) readahead_size_ <<= 1;`.
The window size at least doubles each pass and the loop exits once it
reaches `kMaxReadaheadSize` (= 2^18), so 64 passes always suffice. -/
def doubleReadahead : ℕ → ℕ → ℕ → ℕ → ℕ
  | 0, _, _, sz => sz
  | fuel + 1, raEnd, minBlob, sz =>
      if raEnd + sz ≤ minBlob ∧ sz < kMaxReadaheadSize then
        doubleReadahead fuel raEnd minBlob (sz * 2)
      else sz

/-- The read-ahead maintenance at the top of the `PrefetchAndGet` loop,
computing the new `(readahead_begin_offset_, readahead_end_offset_,`
`readahead_size_)` triple: realign the window when the cursor left it,
then grow it and issue the (advisory, effect-free) prefetch when it does
not yet cover the cursor plus a header plus `min_blob_size`. -/
def prefetchWindow (f : BlobFile) (it : BlobFileIterator) : ℕ × ℕ × ℕ :=
  let w :=
    if it.readahead_begin_offset_ > it.iterate_offset_ ∨
       it.readahead_end_offset_ < it.iterate_offset_ then
      -- alignment
      (it.iterate_offset_ - (it.iterate_offset_ &&& (kDefaultPageSize - 1)),
       it.iterate_offset_ - (it.iterate_offset_ &&& (kDefaultPageSize - 1)),
       kMinReadaheadSize)
    else (it.readahead_begin_offset_, it.readahead_end_offset_, it.readahead_size_)
  let min_blob_size := it.iterate_offset_ + kRecordHeaderSize + f.min_blob_size
  if w.2.1 ≤ min_blob_size then
    let sz := doubleReadahead 64 w.2.1 min_blob_size w.2.2
    -- file_->Prefetch(readahead_end_offset_, readahead_size_): advisory, ignored
    (w.1, w.2.1 + sz, min kMaxReadaheadSize (sz * 2))
  else w

/-- The read-ahead maintenance as a state update (it touches only the
three read-ahead members). -/
def prefetchUpdate (f : BlobFile) (it : BlobFileIterator) : BlobFileIterator :=
  { it with readahead_begin_offset_ := (prefetchWindow f it).1,
            readahead_end_offset_ := (prefetchWindow f it).2.1,
            readahead_size_ := (prefetchWindow f it).2.2 }

/-- `BlobFileIterator::GetBlobRecord`.  Reads the record header at the
cursor (in-region reads succeed; a read at an offset where no slot starts
decodes as corruption), treats a zero payload-length field as a hole-punch
marker (no record, no error), otherwise decodes the record, stores it and
advances the cursor past it (block-aligned when configured). -/
def GetBlobRecord (f : BlobFile) (it : BlobFileIterator) : BlobFileIterator × Bool :=
  -- status_ = file_->Read(iterate_offset_, kRecordHeaderSize, ...)
  let it := { it with status_ := TStatus.ok }
  match slotAt f it.iterate_offset_ with
  | none =>
      -- the bytes at such an offset are not a record header: DecodeHeader fails
      ({ it with status_ := TStatus.corruption }, false)
  | some sl =>
      -- if (*size == 0) return false;  (hole-punch record)
      if sizeField sl = 0 then (it, false)
      else
        match sl with
        | Slot.hole => (it, false)
        | Slot.live r sz =>
            -- DecodeHeader, payload read and DecodeRecord succeed on a live slot
            let record_size := sz
            let off := it.iterate_offset_ + (kRecordHeaderSize + record_size)
            let off := if it.block_size_ ≠ 0 then Roundup off it.block_size_ else off
            ({ it with
                cur_blob_record_ := r,
                cur_record_offset_ := it.iterate_offset_,
                cur_record_size_ := kRecordHeaderSize + record_size,
                iterate_offset_ := off,
                valid_ := true }, true)

/-- The loop body and loop of `BlobFileIterator::PrefetchAndGet`, with
explicit fuel; `none` means the loop did not terminate within `fuel`
iterations.  Every iteration except the hole-punch continuation returns,
and the hole-punch continuation advances the cursor by `block_size_`. -/
def PrefetchAndGetGo (f : BlobFile) : ℕ → BlobFileIterator → Option BlobFileIterator
  | 0, _ => none
  | fuel + 1, it =>
      if it.iterate_offset_ < it.end_of_blob_record_ then
        let res := GetBlobRecord f (prefetchUpdate f it)
        -- if (readahead_end_offset_ < iterate_offset_) readahead_end_offset_ = iterate_offset_;
        let it2 : BlobFileIterator :=
          { res.1 with readahead_end_offset_ :=
              if res.1.readahead_end_offset_ < res.1.iterate_offset_ then res.1.iterate_offset_
              else res.1.readahead_end_offset_ }
        if res.2 ∨ ¬ it2.status_ = TStatus.ok then some it2
        else PrefetchAndGetGo f fuel { it2 with iterate_offset_ := it2.iterate_offset_ + it2.block_size_ }
      else some { it with valid_ := false }

/-- `BlobFileIterator::PrefetchAndGet`.  The only step of the loop that
does not return advances the cursor by `block_size_` and keeps
`iterate_offset_ < end_of_blob_record_`, so whenever `block_size_ ≥ 1`
at most `end_of_blob_record_` continuations can happen and the fuel below
is never exhausted; `none` is reserved for genuine divergence
(`block_size_ = 0` over a hole-punch marker). -/
def PrefetchAndGet (f : BlobFile) (it : BlobFileIterator) : Option BlobFileIterator :=
  PrefetchAndGetGo f (it.end_of_blob_record_ + 1) it

/-- `BlobFileIterator::SeekToFirst`. -/
def SeekToFirst (f : BlobFile) (it : BlobFileIterator) : Option BlobFileIterator :=
  -- if (!init_ && !Init()) return;
  let r := if ¬ it.init_ then Init f it else (it, true)
  if ¬ r.2 then some r.1
  else
    let it : BlobFileIterator := { r.1 with status_ := TStatus.ok }
    let off := it.header_size_
    let off := if it.block_size_ ≠ 0 then Roundup off it.block_size_ else off
    PrefetchAndGet f { it with iterate_offset_ := off }

/-- `BlobFileIterator::Next` (`assert(init_)` is a debug-build no-op). -/
def Next (f : BlobFile) (it : BlobFileIterator) : Option BlobFileIterator :=
  PrefetchAndGet f it

/-- The header-walking loop of `BlobFileIterator::IterateForPrev`: from
`off`, repeatedly read and decode the record header at the cursor and
advance by the block-rounded total record length, while the cursor is
below `target`.  Returns status, final cursor and the last
`total_length`.  The external decoder is modelled as returning the stored
payload-length field; every step advances by at least one byte, so fuel
`target + 1` is never exhausted. -/
def IterateForPrevGo (f : BlobFile) (target bs : ℕ) :
    ℕ → ℕ → ℕ → Option (TStatus × ℕ × ℕ)
  | 0, _, _ => none
  | fuel + 1, off, tl =>
      if off < target then
        match slotAt f off with
        | none => some (TStatus.corruption, off, tl)
        | some sl =>
            let len := kRecordHeaderSize + sizeField sl
            let tl' := if bs ≠ 0 then Roundup len bs else len
            IterateForPrevGo f target bs fuel (off + tl') tl'
      else some (TStatus.ok, off, tl)

/-- `BlobFileIterator::IterateForPrev`. -/
def IterateForPrev (f : BlobFile) (target : ℕ) (it : BlobFileIterator) :
    Option BlobFileIterator :=
  -- if (!init_ && !Init()) return;
  let r := if ¬ it.init_ then Init f it else (it, true)
  if ¬ r.2 then some r.1
  else
    let it : BlobFileIterator := { r.1 with status_ := TStatus.ok }
    if target ≥ it.end_of_blob_record_ then
      some { it with iterate_offset_ := target, status_ := TStatus.invalidArgument }
    else
      let start := if it.block_size_ > 0 then Roundup it.header_size_ it.block_size_
                   else it.header_size_
      match IterateForPrevGo f target it.block_size_ (target + 1) start 0 with
      | none => none
      | some (st, off, tl) =>
          if st ≠ TStatus.ok then some { it with status_ := st, iterate_offset_ := off }
          else
            let off := if off > target then off - tl else off
            some { it with iterate_offset_ := off, valid_ := false }

end BlobFileIterator

/-! ### Spec-side layout helpers -/

/-- The live records of a slot list laid out from offset `o`, each paired
with its start offset — the reference stream a correct scan must emit. -/
def liveList (f : BlobFile) : ℕ → List Slot → List (ℕ × BlobRecord)
  | _, [] => []
  | o, Slot.hole :: rest => liveList f (o + slotExtent f Slot.hole) rest
  | o, Slot.live r sz :: rest =>
      (o, r) :: liveList f (o + slotExtent f (Slot.live r sz)) rest

/-- Well-formedness of a blob file: all `Init` steps succeed, the header
is non-empty, live records have non-zero payload length, hole punching is
only used with a configured block size (the hole-punch unit), and the
slots tile the record region exactly. -/
def WellFormed (f : BlobFile) : Prop :=
  f.headerReadOk = true ∧ f.headerDecodeOk = true ∧ f.footerReadOk = true ∧
  f.footerDecodeOk = true ∧ (f.hasDict = true → f.dictFetchOk = true) ∧
  0 < f.header_size ∧
  (∀ sl ∈ f.slots, sl = Slot.hole ∨ 0 < sizeField sl) ∧
  (f.block_size = 0 → Slot.hole ∉ f.slots) ∧
  endOfBlobRecord f = recStart f + sumExt f f.slots

instance (f : BlobFile) : Decidable (WellFormed f) := by
  unfold WellFormed
  exact inferInstance

/-! ### Scan driver: the GC client loop over one scanner -/

/-- Client loop: while `Valid()`, record the current record (with its
start offset) and call `Next`.  Returns the emitted trace and the final
iterator state. -/
def collectNexts (f : BlobFile) :
    ℕ → BlobFileIterator → Option (List (ℕ × BlobRecord) × BlobFileIterator)
  | 0, _ => none
  | fuel + 1, it =>
      if it.Valid then
        match BlobFileIterator.Next f it with
        | none => none
        | some it' =>
            match collectNexts f fuel it' with
            | none => none
            | some (l, itf) => some ((it.cur_record_offset_, it.cur_blob_record_) :: l, itf)
      else some ([], it)

/-- `SeekToFirst` followed by the client loop. -/
def scanTrace (f : BlobFile) : Option (List (ℕ × BlobRecord) × BlobFileIterator) :=
  (BlobFileIterator.SeekToFirst f initIter).bind (collectNexts f (f.slots.length + 1))

/-- The operations a caller can perform on one scanner, for stating
properties over arbitrary call sequences. -/
inductive IterOp where
  | seekToFirst
  | next
  | iterateForPrev (target : ℕ)
deriving DecidableEq, Repr

/-- Run one operation. -/
def runIterOp (f : BlobFile) (it : BlobFileIterator) : IterOp → Option BlobFileIterator
  | IterOp.seekToFirst => BlobFileIterator.SeekToFirst f it
  | IterOp.next => BlobFileIterator.Next f it
  | IterOp.iterateForPrev t => BlobFileIterator.IterateForPrev f t it

/-- Run a sequence of operations. -/
def runIterOps (f : BlobFile) : List IterOp → BlobFileIterator → Option BlobFileIterator
  | [], it => some it
  | op :: ops, it => (runIterOp f it op).bind (runIterOps f ops)

/-! ### The merge scanner (`BlobFileMergeIterator`)

The C++ object owns a vector of child `BlobFileIterator`s, a
`std::priority_queue` of raw pointers into that vector ordered by the
children's current keys (`BlobFileIterComparator`, a min-heap under the
injected comparator; the header declaring it is not among the sources and
it is modelled from the spec as comparing decoded keys), a raw `current_`
pointer and a `status_`.  The embedding indexes children by position: the
heap becomes the list of pending child indices, and popping the heap
removes one child attaining the minimal current key (ties broken by heap
order, which the properties proved here never depend on). -/

/-- A placeholder `BlobFile` for out-of-range index accesses (never hit by
the verified runs). -/
def dummyBlobFile : BlobFile where
  header_size := 1
  block_size := 0
  file_size := 33
  meta_index_null := true
  meta_index_size := 0
  hasDict := false
  dict_raw_size := 0
  headerReadOk := true
  headerDecodeOk := true
  footerReadOk := true
  footerDecodeOk := true
  dictFetchOk := true
  slots := []
  min_blob_size := 0

/-- The state of a `BlobFileMergeIterator` over a fixed vector of child
scanners: the children's states, the pending-index heap, the current
child, and the merge scanner's own status. -/
structure BlobFileMergeIterator where
  states : List BlobFileIterator
  min_heap_ : List ℕ
  current_ : Option ℕ
  status_ : TStatus
deriving DecidableEq, Repr

/-- The key the heap orders child `i` by: its current decoded key. -/
def heapKey (states : List BlobFileIterator) (i : ℕ) : ℕ :=
  (states.getD i initIter).cur_blob_record_.key

/-- Pop one child with minimal current key from the heap (the
`min_heap_.top(); min_heap_.pop()` pair). -/
def popMin (states : List BlobFileIterator) : List ℕ → Option (ℕ × List ℕ)
  | [] => none
  | i :: rest =>
      match popMin states rest with
      | none => some (i, [])
      | some (j, rest') =>
          if heapKey states i ≤ heapKey states j then some (i, rest)
          else some (j, i :: rest')

namespace BlobFileMergeIterator

/-- `BlobFileMergeIterator::Valid`. -/
def Valid (m : BlobFileMergeIterator) : Bool :=
  match m.current_ with
  | none => false
  | some c =>
      (m.status_ == TStatus.ok) &&
      (m.states.getD c initIter).Valid &&
      ((m.states.getD c initIter).status_ == TStatus.ok)

/-- Seek every child scanner to its first record (the loop body
`iter->SeekToFirst()` over `blob_file_iterators_`); `none` propagates a
diverging child scan. -/
def seekAll : List BlobFile → Option (List BlobFileIterator)
  | [] => some []
  | f :: fs =>
      match BlobFileIterator.SeekToFirst f initIter, seekAll fs with
      | some it, some its => some (it :: its)
      | _, _ => none

/-- `BlobFileMergeIterator::SeekToFirst`: seek every child, push each
valid error-free child, pop the minimum as current or record an aborted
status when no child is valid. -/
def SeekToFirst (fs : List BlobFile) : Option BlobFileMergeIterator := do
  let states ← seekAll fs
  let heap := (List.range states.length).filter
    (fun i => ((states.getD i initIter).status_ == TStatus.ok) && (states.getD i initIter).Valid)
  match popMin states heap with
  | some (c, h') =>
      pure { states := states, min_heap_ := h', current_ := some c, status_ := TStatus.ok }
  | none =>
      pure { states := states, min_heap_ := [], current_ := none, status_ := TStatus.aborted }

/-- `BlobFileMergeIterator::Next` (callers establish `assert(Valid())`). -/
def Next (fs : List BlobFile) (m : BlobFileMergeIterator) : Option BlobFileMergeIterator := do
  match m.current_ with
  | none => pure m
  | some c =>
      let it' ← BlobFileIterator.Next (fs.getD c dummyBlobFile) (m.states.getD c initIter)
      let states := m.states.set c it'
      let heap := if (it'.status_ == TStatus.ok) && it'.Valid then m.min_heap_ ++ [c]
                  else m.min_heap_
      match popMin states heap with
      | some (c', h') => pure { m with states := states, min_heap_ := h', current_ := some c' }
      | none => pure { m with states := states, min_heap_ := [], current_ := none }

/-- `key()`/`value()` delegate to the current child; bundled as the whole
current record. -/
def currentRecord (m : BlobFileMergeIterator) : BlobRecord :=
  match m.current_ with
  | none => ⟨0, 0⟩
  | some c => (m.states.getD c initIter).cur_blob_record_

end BlobFileMergeIterator

/-- Client loop over the merge scanner: while `Valid()`, emit the current
record and call `Next`. -/
def mergeCollect (fs : List BlobFile) :
    ℕ → BlobFileMergeIterator → Option (List BlobRecord)
  | 0, _ => none
  | fuel + 1, m =>
      if m.Valid then
        match BlobFileMergeIterator.Next fs m with
        | none => none
        | some m' =>
            match mergeCollect fs fuel m' with
            | none => none
            | some l => some (m.currentRecord :: l)
      else some []

/-- `SeekToFirst` on the merge scanner followed by the client loop.  The
fuel bounds the number of emitted records by the total number of live
records plus one, which the verified runs never exhaust. -/
def mergeTrace (fs : List BlobFile) : Option (List BlobRecord) :=
  (BlobFileMergeIterator.SeekToFirst fs).bind
    (mergeCollect fs ((fs.map (fun f => (liveList f (recStart f) f.slots).length)).sum + 1))

/-! ### The candidate picker (`BasicBlobGCPicker::PickBlobGC`)

`double` scores become `Rat`; `std::numeric_limits<double>::epsilon()` is
`2^-52`.  `BlobStorage` is consumed through exactly the three accessors
the picker uses: the two pre-ordered scored-candidate sequences and the
`FindFile` lookup (whose `weak_ptr::lock` may come back empty).  A `none`
result of `PickBlobGC` marks the undefined behaviour the source exhibits
when the skip-logging statement dereferences a null `blob_file`. -/

/-- `BlobFileMeta::FileState` (external metadata, referenced not owned). -/
inductive FileState where
  | kNone
  | kNormal
  | kBeingGC
  | kObsolete
deriving DecidableEq, Repr

/-- The slice of `BlobFileMeta` the picker reads. -/
structure BlobFileMeta where
  file_number : ℕ
  file_size : ℕ
  live_data_size : ℕ
  /-- `GetDiscardableRatio()`. -/
  discardable_ratio : ℚ
  file_state : FileState
deriving DecidableEq, Repr

/-- One entry of a scored-candidate sequence (`GCScore`). -/
structure GCScore where
  file_number : ℕ
  score : ℚ
deriving DecidableEq, Repr

/-- The slice of `BlobStorage` the picker consumes. -/
structure BlobStorage where
  punch_hole_score : List GCScore
  gc_score : List GCScore
  /-- the `FindFile(..).lock()` lookup, as an association list. -/
  files : List (ℕ × BlobFileMeta)
deriving DecidableEq, Repr

/-- `blob_storage->FindFile(fn).lock()`. -/
def FindFile (bs : BlobStorage) (fn : ℕ) : Option BlobFileMeta :=
  bs.files.lookup fn

/-- The `TitanCFOptions` fields the picker reads;
`blob_run_mode == TitanBlobRunMode::kFallback` is captured as a flag. -/
structure TitanCFOptions where
  blob_file_discardable_ratio : ℚ
  max_gc_batch_size : ℕ
  min_gc_batch_size : ℕ
  blob_file_target_size : ℕ
  merge_small_file_threshold : ℕ
  in_fallback : Bool
deriving DecidableEq, Repr

/-- The GC plan (`BlobGC`): selected files, continue-next-time flag and
the punch-hole-vs-merge discriminator (the `BlobGC` constructor's
`punch_hole` parameter, defaulted to `false` for merge plans). -/
structure BlobGC where
  inputs : List BlobFileMeta
  maybe_continue_next_time : Bool
  punch_hole : Bool
deriving DecidableEq, Repr

/-- `std::numeric_limits<double>::epsilon()`. -/
def epsilonD : ℚ := 1 / 2 ^ 52

/-- `BasicBlobGCPicker::CheckBlobFile`: only non-null metadata in
`kNormal` state is pick-eligible. -/
def CheckBlobFile (blob_file : Option BlobFileMeta) : Bool :=
  match blob_file with
  | none => false
  | some m => m.file_state == FileState.kNormal

/-- Pass 1 of `PickBlobGC` — the loop over `punch_hole_score`.  The
accumulator mirrors the C++ locals `(blob_files, batch_size,`
`stop_picking, maybe_continue_next_time)`.  The result is `none` when the
skip-logging statement `TITAN_LOG_INFO(..., blob_file->file_number())`
dereferences a null `blob_file` (undefined behaviour in the source). -/
def pass1 (opts : TitanCFOptions) (bs : BlobStorage) :
    List GCScore → List BlobFileMeta → ℕ → Bool → Bool →
    Option (List BlobFileMeta × ℕ × Bool × Bool)
  | [], blob_files, batch_size, stop_picking, mcnt =>
      some (blob_files, batch_size, stop_picking, mcnt)
  | score :: rest, blob_files, batch_size, stop_picking, mcnt =>
      if opts.blob_file_discardable_ratio ≤ score.score then
        some (blob_files, batch_size, stop_picking, mcnt)
      else
        let blob_file := FindFile bs score.file_number
        if ¬ CheckBlobFile blob_file then
          match blob_file with
          | none => none   -- the log statement dereferences blob_file
          | some _ => pass1 opts bs rest blob_files batch_size stop_picking mcnt
        else
          match blob_file with
          | none => none   -- unreachable: CheckBlobFile none = false
          | some m =>
              if ¬ stop_picking then
                let blob_files' := blob_files ++ [m]
                let batch_size' := batch_size + m.file_size
                let stop' := decide (opts.max_gc_batch_size ≤ batch_size')
                pass1 opts bs rest blob_files' batch_size' stop' mcnt
              else some (blob_files, batch_size, stop_picking, true)

/-- Pass 2 of `PickBlobGC` — the loop over `gc_score`.  The accumulator
additionally carries `estimate_output_size` and `next_gc_size`. -/
def pass2 (opts : TitanCFOptions) (bs : BlobStorage) :
    List GCScore → List BlobFileMeta → ℕ → ℕ → Bool → Bool → ℕ →
    Option (List BlobFileMeta × ℕ × ℕ × Bool × Bool)
  | [], blob_files, batch_size, est, stop_picking, mcnt, _ =>
      some (blob_files, batch_size, est, stop_picking, mcnt)
  | gc_score :: rest, blob_files, batch_size, est, stop_picking, mcnt, next_gc_size =>
      -- in fallback mode, only gc files that all blobs are discarded
      if opts.in_fallback ∧ epsilonD < |1 - gc_score.score| then
        some (blob_files, batch_size, est, stop_picking, mcnt)
      else
        let blob_file := FindFile bs gc_score.file_number
        if ¬ CheckBlobFile blob_file then
          match blob_file with
          | none => none   -- the log statement dereferences blob_file
          | some _ => pass2 opts bs rest blob_files batch_size est stop_picking mcnt next_gc_size
        else
          match blob_file with
          | none => none
          | some m =>
              if ¬ stop_picking then
                let blob_files' := blob_files ++ [m]
                -- RecordTick(TITAN_GC_SMALL_FILE / TITAN_GC_DISCARDABLE): stats only
                let batch_size' := batch_size + m.file_size
                let est' := est + m.live_data_size
                let stop' := decide (opts.max_gc_batch_size ≤ batch_size' ∨
                                     opts.blob_file_target_size ≤ est')
                pass2 opts bs rest blob_files' batch_size' est' stop' mcnt next_gc_size
              else
                let next_gc_size' := next_gc_size + m.file_size
                if opts.min_gc_batch_size < next_gc_size' ∨ opts.in_fallback then
                  -- RecordTick(TITAN_GC_REMAIN); TITAN_LOG_INFO(...); break
                  some (blob_files, batch_size, est, stop_picking, true)
                else
                  pass2 opts bs rest blob_files batch_size est stop_picking mcnt next_gc_size'

/-- `BasicBlobGCPicker::PickBlobGC`.  `none` marks the undefined
behaviour on a null metadata dereference; `some none` is the C++
`nullptr` result (no plan); `some (some gc)` is a returned plan. -/
def PickBlobGC (opts : TitanCFOptions) (bs : BlobStorage) : Option (Option BlobGC) :=
  match pass1 opts bs bs.punch_hole_score [] 0 false false with
  | none => none
  | some (blob_files, batch_size, stop_picking, mcnt) =>
      if blob_files ≠ [] then
        some (some ⟨blob_files, mcnt, true⟩)
      else
        match pass2 opts bs bs.gc_score blob_files batch_size 0 stop_picking mcnt 0 with
        | none => none
        | some (blob_files, batch_size, estimate_output_size, _, mcnt) =>
            if blob_files = [] then some none
            else
              -- Skip these checks if in fallback mode
              if ¬ opts.in_fallback ∧
                 (batch_size < opts.min_gc_batch_size ∧
                  estimate_output_size < opts.blob_file_target_size) then
                some none
              else
                if ¬ opts.in_fallback ∧
                   (blob_files.length = 1 ∧
                    (blob_files.getD 0 ⟨0, 0, 0, 0, FileState.kNone⟩).file_size ≤
                      opts.merge_small_file_threshold ∧
                    (blob_files.getD 0 ⟨0, 0, 0, 0, FileState.kNone⟩).discardable_ratio <
                      opts.blob_file_discardable_ratio) then
                  some none
                else
                  some (some ⟨blob_files, mcnt, false⟩)

/-! ### Invariants used by the correctness proofs -/

/-- The member fields a successful `Init` pins down. -/
def Consistent (f : BlobFile) (it : BlobFileIterator) : Prop :=
  it.init_ = true ∧ it.block_size_ = f.block_size ∧
  it.end_of_blob_record_ = endOfBlobRecord f ∧ it.header_size_ = f.header_size

instance (f : BlobFile) (it : BlobFileIterator) : Decidable (Consistent f it) := by
  unfold Consistent
  exact inferInstance

/-- A scanner that has just completed a scan-and-decode step and still has
`rem` records to deliver (the head of `rem` being the record it currently
holds): either it is exhausted at the end-of-record-region boundary, or it
is positioned on the record at some slot boundary with the remaining slots
laid out after it. -/
def Positioned (f : BlobFile) (it : BlobFileIterator) (rem : List (ℕ × BlobRecord)) : Prop :=
  Consistent f it ∧ it.status_ = TStatus.ok ∧
  ((rem = [] ∧ it.valid_ = false ∧ it.iterate_offset_ = endOfBlobRecord f) ∨
   (∃ pre rest, f.slots = pre ++ rest ∧
      it.iterate_offset_ = recStart f + sumExt f pre ∧
      it.valid_ = true ∧
      rem = (it.cur_record_offset_, it.cur_blob_record_) :: liveList f it.iterate_offset_ rest))

/-- The indices the merge scanner still owes output from: the heap plus
the current child. -/
def pendingList (m : BlobFileMergeIterator) : List ℕ :=
  m.min_heap_ ++ (match m.current_ with | some c => [c] | none => [])

/-- Invariant tying a merge-scanner state to the per-child lists of
records still to be emitted. -/
def MergeInv (fs : List BlobFile) (m : BlobFileMergeIterator)
    (rems : List (List (ℕ × BlobRecord))) : Prop :=
  m.states.length = fs.length ∧ rems.length = fs.length ∧
  (∀ i, i < fs.length →
    Positioned (fs.getD i dummyBlobFile) (m.states.getD i initIter) (rems.getD i [])) ∧
  (pendingList m).Nodup ∧
  (∀ i, i ∈ pendingList m ↔ i < fs.length ∧ rems.getD i [] ≠ []) ∧
  m.status_ = TStatus.ok ∧
  (m.current_ = none → m.min_heap_ = []) ∧
  (∀ c, m.current_ = some c → ∀ j ∈ m.min_heap_, heapKey m.states c ≤ heapKey m.states j)

/-! ### Concrete instances for witnesses and counterexamples -/

/-- A well-formed blob file with block alignment: header of 10 bytes,
block size 16, record region `[16, 64)` holding a live record at 16,
a hole-punched block at 32 and a live record at 48. -/
def exF1 : BlobFile where
  header_size := 10
  block_size := 16
  file_size := 96
  meta_index_null := true
  meta_index_size := 0
  hasDict := false
  dict_raw_size := 0
  headerReadOk := true
  headerDecodeOk := true
  footerReadOk := true
  footerDecodeOk := true
  dictFetchOk := true
  slots := [Slot.live ⟨1, 11⟩ 3, Slot.hole, Slot.live ⟨2, 22⟩ 4]
  min_blob_size := 0

/-- `exF1` without the hole-punched block: record region `[16, 48)`. -/
def exF2 : BlobFile :=
  { exF1 with file_size := 80,
              slots := [Slot.live ⟨1, 11⟩ 3, Slot.live ⟨2, 22⟩ 4] }

/-- `exF1` with a failing footer decode. -/
def exF5 : BlobFile := { exF1 with footerDecodeOk := false }

/-- A hole-free file whose record keys appear in decreasing order (5 then
1): blob files are not key-sorted by construction. -/
def exFDesc : BlobFile :=
  { exF1 with file_size := 80,
              slots := [Slot.live ⟨5, 50⟩ 1, Slot.live ⟨1, 10⟩ 1] }

/-- Key-sorted single-record files with keys covering `{1,5}`, `{3,8}`,
`{2,9}` — the overlapping three-file scenario of the spec. -/
def exG1 : BlobFile :=
  { exF1 with file_size := 80,
              slots := [Slot.live ⟨1, 0⟩ 1, Slot.live ⟨5, 0⟩ 1] }

/-- Second child of the three-file merge scenario. -/
def exG2 : BlobFile :=
  { exF1 with file_size := 80,
              slots := [Slot.live ⟨3, 0⟩ 1, Slot.live ⟨8, 0⟩ 1] }

/-- Third child of the three-file merge scenario. -/
def exG3 : BlobFile :=
  { exF1 with file_size := 80,
              slots := [Slot.live ⟨2, 0⟩ 1, Slot.live ⟨9, 0⟩ 1] }

/-- A file with no block alignment (`block_size = 0`) whose record region
`[10, 26)` nevertheless contains a hole-punch marker at offset 10 —
the degenerate configuration the scan loop cannot make progress on. -/
def exF0H : BlobFile :=
  { exF1 with block_size := 0, file_size := 58,
              slots := [Slot.hole, Slot.live ⟨7, 70⟩ 7] }

/-- An iterator of `exF1` parked on the hole-punched block at offset 32. -/
def exItHole : BlobFileIterator :=
  { initIter with init_ := true, iterate_offset_ := 32, end_of_blob_record_ := 64,
                  block_size_ := 16, header_size_ := 10 }

/-- Picker options: discardable ratio 1/2, max batch 1000000, min batch
100000, target size 5000000, small-file threshold 100000, normal mode. -/
def exOpts : TitanCFOptions :=
  ⟨Rat.mk' 1 2, 1000000, 100000, 5000000, 100000, false⟩

/-- Storage of pickable punch-hole scenario A: one `Normal` file of score
1/10 under the threshold. -/
def exStoA : BlobStorage :=
  ⟨[⟨1, Rat.mk' 1 10⟩], [], [(1, ⟨1, 500, 300, Rat.mk' 1 10, FileState.kNormal⟩)]⟩

/-- Storage whose punch-hole candidate has no resolvable metadata: the
skip-logging statement dereferences a null pointer. -/
def exStoAbsent : BlobStorage := ⟨[⟨1, 0⟩], [], []⟩

/-- Storage whose sole punch-hole candidate is in `kBeingGC` state: it is
skipped and the picker returns no plan. -/
def exStoBeingGC : BlobStorage :=
  ⟨[⟨1, 0⟩], [], [(1, ⟨1, 500, 300, 0, FileState.kBeingGC⟩)]⟩

/-- Merge scenario B of the spec: GC list with a large mostly-dead file
and a small mostly-live file. -/
def exStoB : BlobStorage :=
  ⟨[], [⟨10, Rat.mk' 9 10⟩, ⟨11, Rat.mk' 1 20⟩],
   [(10, ⟨10, 2000000, 100, Rat.mk' 9 10, FileState.kNormal⟩),
    (11, ⟨11, 500000, 100, Rat.mk' 1 20, FileState.kNormal⟩)]⟩

/-- Scenario C of the spec: a single small, mostly-live file. -/
def exStoC : BlobStorage :=
  ⟨[], [⟨12, Rat.mk' 1 5⟩], [(12, ⟨12, 50000, 100, Rat.mk' 1 5, FileState.kNormal⟩)]⟩

/-- `exF1` with a failing header read. -/
def exF3 : BlobFile := { exF1 with headerReadOk := false }

/-- An initialized iterator of `exF2` (record region `[16, 48)`). -/
def exIt2 : BlobFileIterator :=
  { initIter with init_ := true, end_of_blob_record_ := 48, block_size_ := 16,
                  header_size_ := 10 }

/-- An iterator of `exF0H` parked on its hole-punch marker at offset 10
with no block alignment configured: the scan loop can make no progress
from this state. -/
def exItDiv : BlobFileIterator :=
  { initIter with init_ := true, iterate_offset_ := 10, end_of_blob_record_ := 26,
                  block_size_ := 0, header_size_ := 10 }

/-! ### Arithmetic facts about `Roundup` -/

theorem roundup_dvd (x y : ℕ) : y ∣ Roundup x y :=
  Dvd.intro_left _ rfl

theorem roundup_ge (x y : ℕ) (hy : 0 < y) : x ≤ Roundup x y := by
  unfold Roundup
  rcases Nat.eq_zero_or_pos x with hx | hx
  · simp [hx]
  · have h1 : x + y - 1 = (x - 1) + y := by omega
    rw [h1, Nat.add_div_right _ hy, Nat.add_mul, Nat.one_mul]
    have h2 := Nat.div_add_mod (x - 1) y
    rw [Nat.mul_comm] at h2
    have h3 : (x - 1) % y < y := Nat.mod_lt _ hy
    omega

theorem roundup_add_mul (k x y : ℕ) (hy : 0 < y) :
    Roundup (y * k + x) y = y * k + Roundup x y := by
  unfold Roundup
  have h1 : y * k + x + y - 1 = y * k + (x + y - 1) := by omega
  rw [h1, Nat.mul_add_div hy, Nat.add_mul, Nat.mul_comm k y]

theorem roundup_add_of_dvd (a x y : ℕ) (h : y ∣ a) (hy : 0 < y) :
    Roundup (a + x) y = a + Roundup x y := by
  obtain ⟨k, rfl⟩ := h
  exact roundup_add_mul k x y hy

/-! ### Facts about slot layout -/

theorem slotExtent_hole (f : BlobFile) : slotExtent f Slot.hole = f.block_size := rfl

theorem slotExtent_live (f : BlobFile) (r : BlobRecord) (sz : ℕ) :
    slotExtent f (Slot.live r sz) =
      if f.block_size ≠ 0 then Roundup (kRecordHeaderSize + sz) f.block_size
      else kRecordHeaderSize + sz := rfl

theorem slotExtent_pos (f : BlobFile) (sl : Slot)
    (hb : f.block_size = 0 → sl ≠ Slot.hole) : 1 ≤ slotExtent f sl := by
  cases sl with
  | hole =>
      have h1 : f.block_size ≠ 0 := fun h => (hb h) rfl
      rw [slotExtent_hole]
      omega
  | live r sz =>
      rw [slotExtent_live]
      by_cases h : f.block_size ≠ 0
      · rw [if_pos h]
        calc 1 ≤ kRecordHeaderSize + sz := by unfold kRecordHeaderSize; omega
        _ ≤ Roundup (kRecordHeaderSize + sz) f.block_size :=
            roundup_ge _ _ (Nat.pos_of_ne_zero (by simpa using h))
      · rw [if_neg h]
        unfold kRecordHeaderSize
        omega

theorem wf_slotExtent_pos {f : BlobFile} (hWF : WellFormed f) :
    ∀ sl ∈ f.slots, 1 ≤ slotExtent f sl := by
  intro sl hsl
  refine slotExtent_pos f sl (fun h0 heq => ?_)
  exact hWF.2.2.2.2.2.2.2.1 h0 (heq ▸ hsl)

theorem sumExt_nil (f : BlobFile) : sumExt f [] = 0 := rfl

theorem sumExt_cons (f : BlobFile) (sl : Slot) (l : List Slot) :
    sumExt f (sl :: l) = slotExtent f sl + sumExt f l := by
  simp [sumExt]

theorem sumExt_append (f : BlobFile) (l₁ l₂ : List Slot) :
    sumExt f (l₁ ++ l₂) = sumExt f l₁ + sumExt f l₂ := by
  simp [sumExt]

theorem length_le_sumExt (f : BlobFile) (l : List Slot)
    (h : ∀ sl ∈ l, 1 ≤ slotExtent f sl) : l.length ≤ sumExt f l := by
  induction l with
  | nil => simp [sumExt]
  | cons sl rest ih =>
      have h1 := h sl (List.mem_cons_self _ _)
      have h2 := ih (fun x hx => h x (List.mem_cons_of_mem _ hx))
      rw [sumExt_cons]
      simp only [List.length_cons]
      omega

theorem dvd_slotExtent (f : BlobFile) (sl : Slot) (hb : f.block_size ≠ 0) :
    f.block_size ∣ slotExtent f sl := by
  cases sl with
  | hole => simp [slotExtent]
  | live r sz => simp [slotExtent, hb, roundup_dvd]

theorem dvd_sumExt (f : BlobFile) (l : List Slot) (hb : f.block_size ≠ 0) :
    f.block_size ∣ sumExt f l := by
  induction l with
  | nil => simp [sumExt]
  | cons sl rest ih => rw [sumExt_cons]; exact Nat.dvd_add (dvd_slotExtent f sl hb) ih

theorem dvd_recStart (f : BlobFile) (hb : f.block_size ≠ 0) :
    f.block_size ∣ recStart f := by
  simp [recStart, hb, roundup_dvd]

theorem recStart_pos (f : BlobFile) (h0 : 0 < f.header_size) : 0 < recStart f := by
  unfold recStart
  by_cases hb : f.block_size ≠ 0
  · rw [if_pos hb]
    exact Nat.lt_of_lt_of_le h0 (roundup_ge _ _ (Nat.pos_of_ne_zero (by simpa using hb)))
  · rw [if_neg hb]
    exact h0

theorem slotAtAux_nil (f : BlobFile) (start o : ℕ) : slotAtAux f start [] o = none := rfl

theorem slotAtAux_cons (f : BlobFile) (start : ℕ) (sl : Slot) (rest : List Slot) (o : ℕ) :
    slotAtAux f start (sl :: rest) o =
      if o = start then some sl else slotAtAux f (start + slotExtent f sl) rest o := rfl

theorem slotAtAux_zero (f : BlobFile) (l : List Slot) :
    ∀ start, 0 < start → slotAtAux f start l 0 = none := by
  induction l with
  | nil => intro start _; rfl
  | cons sl rest ih =>
      intro start hs
      rw [slotAtAux_cons, if_neg (by omega)]
      exact ih _ (by omega)

theorem slotAt_zero (f : BlobFile) (h0 : 0 < f.header_size) : slotAt f 0 = none :=
  slotAtAux_zero f f.slots _ (recStart_pos f h0)

theorem slotAtAux_mem (f : BlobFile) (l : List Slot) :
    ∀ start o sl, slotAtAux f start l o = some sl → sl ∈ l := by
  induction l with
  | nil => intro _ _ _ h; simp [slotAtAux] at h
  | cons x rest ih =>
      intro start o sl h
      rw [slotAtAux_cons] at h
      by_cases he : o = start
      · rw [if_pos he] at h
        simp at h
        simp [h]
      · rw [if_neg he] at h
        exact List.mem_cons_of_mem _ (ih _ _ _ h)

theorem slotAt_mem (f : BlobFile) (o : ℕ) (sl : Slot) (h : slotAt f o = some sl) :
    sl ∈ f.slots := slotAtAux_mem f f.slots _ _ _ h

theorem slotAtAux_boundary (f : BlobFile) :
    ∀ pre rest start, (∀ sl ∈ pre, 1 ≤ slotExtent f sl) →
      slotAtAux f start (pre ++ rest) (start + sumExt f pre) =
        slotAtAux f (start + sumExt f pre) rest (start + sumExt f pre) := by
  intro pre
  induction pre with
  | nil =>
      intro rest start _
      rw [sumExt_nil, Nat.add_zero, List.nil_append]
  | cons sl pre' ih =>
      intro rest start hpos
      have h1 : 1 ≤ slotExtent f sl := hpos sl (List.mem_cons_self _ _)
      have h2 : ∀ x ∈ pre', 1 ≤ slotExtent f x :=
        fun x hx => hpos x (List.mem_cons_of_mem _ hx)
      rw [List.cons_append, sumExt_cons, ← Nat.add_assoc, slotAtAux_cons,
        if_neg (by omega)]
      exact ih rest (start + slotExtent f sl) h2

theorem slotAt_boundary (f : BlobFile) (pre rest : List Slot) (sl : Slot)
    (hsplit : f.slots = pre ++ sl :: rest)
    (hpos : ∀ x ∈ f.slots, 1 ≤ slotExtent f x) :
    slotAt f (recStart f + sumExt f pre) = some sl := by
  unfold slotAt
  rw [hsplit]
  rw [slotAtAux_boundary f pre (sl :: rest) (recStart f)
        (fun x hx => hpos x (hsplit ▸ List.mem_append_left _ hx))]
  rw [slotAtAux_cons, if_pos rfl]

theorem slotAtAux_inv (f : BlobFile) (l : List Slot) :
    ∀ start o sl, slotAtAux f start l o = some sl →
      ∃ pre rest, l = pre ++ sl :: rest ∧ o = start + sumExt f pre := by
  induction l with
  | nil => intro _ _ _ h; simp [slotAtAux] at h
  | cons x rest ih =>
      intro start o sl h
      rw [slotAtAux_cons] at h
      by_cases he : o = start
      · rw [if_pos he] at h
        simp at h
        exact ⟨[], rest, by simp [h], by simp [sumExt, he]⟩
      · rw [if_neg he] at h
        obtain ⟨pre', rest', hsp, ho⟩ := ih _ _ _ h
        exact ⟨x :: pre', rest', by simp [hsp], by rw [ho, sumExt_cons]; omega⟩

theorem slotAt_inv (f : BlobFile) (o : ℕ) (sl : Slot) (h : slotAt f o = some sl) :
    ∃ pre rest, f.slots = pre ++ sl :: rest ∧ o = recStart f + sumExt f pre :=
  slotAtAux_inv f f.slots _ _ _ h

/-- Two split points of the same slot list compare: the first boundary is
at most the second, or it lies at or past the end of the second's slot. -/
theorem boundary_cases (f : BlobFile) :
    ∀ (p₁ r₁ p₂ : List Slot) (sl : Slot) (r₂ : List Slot),
      p₁ ++ r₁ = p₂ ++ sl :: r₂ →
      sumExt f p₁ ≤ sumExt f p₂ ∨ sumExt f p₂ + slotExtent f sl ≤ sumExt f p₁ := by
  intro p₁
  induction p₁ with
  | nil => intro r₁ p₂ sl r₂ _; left; simp [sumExt]
  | cons x p₁' ih =>
      intro r₁ p₂ sl r₂ heq
      cases p₂ with
      | nil =>
          right
          simp only [List.nil_append] at heq
          have hx : x = sl := by
            have := congrArg (fun l => l.head?) heq
            simpa using this
          rw [sumExt_nil, sumExt_cons, hx]
          omega
      | cons y p₂' =>
          have hx : x = y := by
            have := congrArg (fun l => l.head?) heq
            simpa using this
          have htl : p₁' ++ r₁ = p₂' ++ sl :: r₂ := by
            have := congrArg List.tail heq
            simpa using this
          rcases ih r₁ p₂' sl r₂ htl with h | h
          · left; rw [sumExt_cons, sumExt_cons, hx]; omega
          · right; rw [sumExt_cons, sumExt_cons, hx]; omega

/-! ### Preservation facts for the read-ahead bookkeeping -/

theorem prefetchUpdate_iterate_offset (f : BlobFile) (it : BlobFileIterator) :
    (BlobFileIterator.prefetchUpdate f it).iterate_offset_ = it.iterate_offset_ := rfl

theorem prefetchUpdate_status (f : BlobFile) (it : BlobFileIterator) :
    (BlobFileIterator.prefetchUpdate f it).status_ = it.status_ := rfl

theorem prefetchUpdate_valid (f : BlobFile) (it : BlobFileIterator) :
    (BlobFileIterator.prefetchUpdate f it).valid_ = it.valid_ := rfl

/-! ### Step lemmas for the scan-and-decode loop -/

theorem getBlobRecord_at_hole (f : BlobFile) (it : BlobFileIterator)
    (h : slotAt f it.iterate_offset_ = some Slot.hole) :
    BlobFileIterator.GetBlobRecord f it = ({ it with status_ := TStatus.ok }, false) := by
  unfold BlobFileIterator.GetBlobRecord
  dsimp only
  rw [h]
  rfl

theorem getBlobRecord_at_none (f : BlobFile) (it : BlobFileIterator)
    (h : slotAt f it.iterate_offset_ = none) :
    BlobFileIterator.GetBlobRecord f it =
      ({ it with status_ := TStatus.corruption }, false) := by
  unfold BlobFileIterator.GetBlobRecord
  dsimp only
  rw [h]

theorem getBlobRecord_at_live (f : BlobFile) (it : BlobFileIterator) (r : BlobRecord) (sz : ℕ)
    (h : slotAt f it.iterate_offset_ = some (Slot.live r sz)) (hsz : sz ≠ 0) :
    BlobFileIterator.GetBlobRecord f it =
      ({ it with
          status_ := TStatus.ok
          cur_blob_record_ := r
          cur_record_offset_ := it.iterate_offset_
          cur_record_size_ := kRecordHeaderSize + sz
          iterate_offset_ :=
            if it.block_size_ ≠ 0 then
              Roundup (it.iterate_offset_ + (kRecordHeaderSize + sz)) it.block_size_
            else it.iterate_offset_ + (kRecordHeaderSize + sz)
          valid_ := true }, true) := by
  unfold BlobFileIterator.GetBlobRecord
  dsimp only
  rw [h]
  simp [sizeField, hsz]

theorem go_succ (f : BlobFile) (fuel : ℕ) (it : BlobFileIterator) :
    BlobFileIterator.PrefetchAndGetGo f (fuel + 1) it =
      if it.iterate_offset_ < it.end_of_blob_record_ then
        (let res := BlobFileIterator.GetBlobRecord f (BlobFileIterator.prefetchUpdate f it)
         let it2 : BlobFileIterator :=
           { res.1 with readahead_end_offset_ :=
               if res.1.readahead_end_offset_ < res.1.iterate_offset_ then res.1.iterate_offset_
               else res.1.readahead_end_offset_ }
         if res.2 ∨ ¬ it2.status_ = TStatus.ok then some it2
         else BlobFileIterator.PrefetchAndGetGo f fuel
                { it2 with iterate_offset_ := it2.iterate_offset_ + it2.block_size_ })
      else some { it with valid_ := false } := rfl

theorem go_at_end (f : BlobFile) (fuel : ℕ) (it : BlobFileIterator)
    (h : ¬ it.iterate_offset_ < it.end_of_blob_record_) :
    BlobFileIterator.PrefetchAndGetGo f (fuel + 1) it = some { it with valid_ := false } := by
  rw [go_succ, if_neg h]

theorem go_step_hole (f : BlobFile) (fuel : ℕ) (it : BlobFileIterator)
    (h : slotAt f it.iterate_offset_ = some Slot.hole)
    (hlt : it.iterate_offset_ < it.end_of_blob_record_) :
    ∃ it2, BlobFileIterator.PrefetchAndGetGo f (fuel + 1) it =
        BlobFileIterator.PrefetchAndGetGo f fuel it2 ∧
      it2.iterate_offset_ = it.iterate_offset_ + it.block_size_ ∧
      it2.status_ = TStatus.ok ∧ it2.valid_ = it.valid_ ∧ it2.init_ = it.init_ ∧
      it2.header_size_ = it.header_size_ ∧
      it2.end_of_blob_record_ = it.end_of_blob_record_ ∧
      it2.block_size_ = it.block_size_ ∧
      it2.cur_blob_record_ = it.cur_blob_record_ ∧
      it2.cur_record_offset_ = it.cur_record_offset_ ∧
      it2.cur_record_size_ = it.cur_record_size_ := by
  have hpre : slotAt f (BlobFileIterator.prefetchUpdate f it).iterate_offset_ =
      some Slot.hole := h
  rw [go_succ, if_pos hlt, getBlobRecord_at_hole f _ hpre]
  dsimp only
  exact ⟨_, rfl, rfl, rfl, rfl, rfl, rfl, rfl, rfl, rfl, rfl, rfl⟩

theorem go_step_live (f : BlobFile) (fuel : ℕ) (it : BlobFileIterator) (r : BlobRecord) (sz : ℕ)
    (h : slotAt f it.iterate_offset_ = some (Slot.live r sz)) (hsz : sz ≠ 0)
    (hlt : it.iterate_offset_ < it.end_of_blob_record_) :
    ∃ it', BlobFileIterator.PrefetchAndGetGo f (fuel + 1) it = some it' ∧
      it'.iterate_offset_ =
        (if it.block_size_ ≠ 0 then
          Roundup (it.iterate_offset_ + (kRecordHeaderSize + sz)) it.block_size_
        else it.iterate_offset_ + (kRecordHeaderSize + sz)) ∧
      it'.status_ = TStatus.ok ∧ it'.valid_ = true ∧ it'.init_ = it.init_ ∧
      it'.header_size_ = it.header_size_ ∧
      it'.end_of_blob_record_ = it.end_of_blob_record_ ∧
      it'.block_size_ = it.block_size_ ∧
      it'.cur_blob_record_ = r ∧
      it'.cur_record_offset_ = it.iterate_offset_ ∧
      it'.cur_record_size_ = kRecordHeaderSize + sz := by
  have hpre : slotAt f (BlobFileIterator.prefetchUpdate f it).iterate_offset_ =
      some (Slot.live r sz) := h
  rw [go_succ, if_pos hlt, getBlobRecord_at_live f _ r sz hpre hsz]
  dsimp only
  exact ⟨_, rfl, rfl, rfl, rfl, rfl, rfl, rfl, rfl, rfl, rfl, rfl⟩

theorem go_step_none (f : BlobFile) (fuel : ℕ) (it : BlobFileIterator)
    (h : slotAt f it.iterate_offset_ = none)
    (hlt : it.iterate_offset_ < it.end_of_blob_record_) :
    ∃ it', BlobFileIterator.PrefetchAndGetGo f (fuel + 1) it = some it' ∧
      it'.iterate_offset_ = it.iterate_offset_ ∧
      it'.status_ = TStatus.corruption ∧ it'.valid_ = it.valid_ ∧ it'.init_ = it.init_ := by
  have hpre : slotAt f (BlobFileIterator.prefetchUpdate f it).iterate_offset_ = none := h
  rw [go_succ, if_pos hlt, getBlobRecord_at_none f _ hpre]
  dsimp only
  exact ⟨_, rfl, rfl, rfl, rfl, rfl⟩

theorem liveList_nil (f : BlobFile) (o : ℕ) : liveList f o [] = [] := rfl

theorem liveList_cons_hole (f : BlobFile) (o : ℕ) (rest : List Slot) :
    liveList f o (Slot.hole :: rest) =
      liveList f (o + slotExtent f Slot.hole) rest := rfl

theorem liveList_cons_live (f : BlobFile) (o : ℕ) (r : BlobRecord) (sz : ℕ)
    (rest : List Slot) :
    liveList f o (Slot.live r sz :: rest) =
      (o, r) :: liveList f (o + slotExtent f (Slot.live r sz)) rest := rfl

theorem wf_header_pos {f : BlobFile} (hWF : WellFormed f) : 0 < f.header_size :=
  hWF.2.2.2.2.2.1

theorem wf_live_pos {f : BlobFile} (hWF : WellFormed f) :
    ∀ sl ∈ f.slots, sl = Slot.hole ∨ 0 < sizeField sl :=
  hWF.2.2.2.2.2.2.1

theorem wf_no_hole0 {f : BlobFile} (hWF : WellFormed f) :
    f.block_size = 0 → Slot.hole ∉ f.slots :=
  hWF.2.2.2.2.2.2.2.1

theorem wf_end_eq {f : BlobFile} (hWF : WellFormed f) :
    endOfBlobRecord f = recStart f + sumExt f f.slots :=
  hWF.2.2.2.2.2.2.2.2

/-- The scan-and-decode loop, run from a slot boundary with enough fuel:
it consumes any leading hole-punched blocks, then either yields the first
live record or exhausts exactly at the end-of-record-region boundary. -/
theorem pa_spec (f : BlobFile) (hWF : WellFormed f) :
    ∀ (rest pre : List Slot) (it : BlobFileIterator) (fuel : ℕ),
      f.slots = pre ++ rest →
      it.init_ = true → it.block_size_ = f.block_size →
      it.end_of_blob_record_ = endOfBlobRecord f → it.header_size_ = f.header_size →
      it.iterate_offset_ = recStart f + sumExt f pre →
      it.status_ = TStatus.ok →
      rest.length + 1 ≤ fuel →
      ∃ it', BlobFileIterator.PrefetchAndGetGo f fuel it = some it' ∧
        Positioned f it' (liveList f it.iterate_offset_ rest) := by
  intro rest
  induction rest with
  | nil =>
      intro pre it fuel hsplit hinit hbs hend hhd hoff hst hfuel
      obtain ⟨k, rfl⟩ : ∃ k, fuel = k + 1 := ⟨fuel - 1, by omega⟩
      have hsums : sumExt f f.slots = sumExt f pre := by
        rw [hsplit, List.append_nil]
      have hoffend : it.iterate_offset_ = endOfBlobRecord f := by
        rw [hoff, wf_end_eq hWF, hsums]
      refine ⟨{ it with valid_ := false }, ?_, ?_⟩
      · exact go_at_end f k it (by rw [hend, hoffend]; omega)
      · refine ⟨⟨hinit, hbs, hend, hhd⟩, hst, Or.inl ⟨liveList_nil f _, rfl, hoffend⟩⟩
  | cons sl rest' ih =>
      intro pre it fuel hsplit hinit hbs hend hhd hoff hst hfuel
      obtain ⟨k, rfl⟩ : ∃ k, fuel = k + 1 := ⟨fuel - 1, by omega⟩
      have hpos : ∀ x ∈ f.slots, 1 ≤ slotExtent f x := wf_slotExtent_pos hWF
      have hmemsl : sl ∈ f.slots := by
        rw [hsplit]; exact List.mem_append_right _ (List.mem_cons_self _ _)
      have hextpos : 1 ≤ slotExtent f sl := hpos sl hmemsl
      have hlt : it.iterate_offset_ < it.end_of_blob_record_ := by
        rw [hend, hoff, wf_end_eq hWF, hsplit, sumExt_append, sumExt_cons]
        omega
      have hsl : slotAt f it.iterate_offset_ = some sl := by
        rw [hoff]
        exact slotAt_boundary f pre rest' sl hsplit hpos
      cases sl with
      | hole =>
          obtain ⟨it2, heq, ho2, hs2, _, hi2, hh2, he2, hb2, _, _, _⟩ :=
            go_step_hole f k it hsl hlt
          have hsplit2 : f.slots = (pre ++ [Slot.hole]) ++ rest' := by
            rw [hsplit]; simp
          have hoff2 : it2.iterate_offset_ = recStart f + sumExt f (pre ++ [Slot.hole]) := by
            rw [ho2, hoff, hbs, sumExt_append, sumExt_cons, sumExt_nil, slotExtent_hole]
            omega
          obtain ⟨it', hgo, hpo⟩ := ih (pre ++ [Slot.hole]) it2 k hsplit2
            (hi2.trans hinit) (hb2.trans hbs) (he2.trans hend) (hh2.trans hhd)
            hoff2 hs2 (by simpa using Nat.le_of_succ_le_succ hfuel)
          refine ⟨it', heq.trans hgo, ?_⟩
          rw [liveList_cons_hole]
          have : it.iterate_offset_ + slotExtent f Slot.hole = it2.iterate_offset_ := by
            rw [ho2, hbs, slotExtent_hole]
          rw [this]
          exact hpo
      | live r sz =>
          have hsz : sz ≠ 0 := by
            rcases wf_live_pos hWF _ hmemsl with h | h
            · exact absurd h (by simp)
            · simpa [sizeField] using Nat.pos_iff_ne_zero.mp h
          obtain ⟨it', heq, ho', hs', hv', hi', hh', he', hb', hc', hco', _⟩ :=
            go_step_live f k it r sz hsl hsz hlt
          have hoff' : it'.iterate_offset_ =
              recStart f + sumExt f (pre ++ [Slot.live r sz]) := by
            rw [ho', hbs, hoff]
            rw [sumExt_append, sumExt_cons, sumExt_nil, slotExtent_live]
            by_cases hb0 : f.block_size ≠ 0
            · rw [if_pos hb0, if_pos hb0]
              have hdvd : f.block_size ∣ recStart f + sumExt f pre :=
                Nat.dvd_add (dvd_recStart f hb0) (dvd_sumExt f pre hb0)
              rw [roundup_add_of_dvd _ _ _ hdvd (Nat.pos_of_ne_zero (by simpa using hb0))]
              omega
            · rw [if_neg hb0, if_neg hb0]
              omega
          refine ⟨it', heq, ⟨hi'.trans hinit, hb'.trans hbs, he'.trans hend,
            hh'.trans hhd⟩, hs', Or.inr ?_⟩
          refine ⟨pre ++ [Slot.live r sz], rest', by rw [hsplit]; simp, hoff', hv', ?_⟩
          rw [hco', hc', liveList_cons_live]
          have : it.iterate_offset_ + slotExtent f (Slot.live r sz) =
              it'.iterate_offset_ := by
            rw [hoff', hoff, sumExt_append, sumExt_cons, sumExt_nil]
            omega
          rw [this]

theorem valid_iff (it : BlobFileIterator) :
    it.Valid = true ↔ (it.valid_ = true ∧ it.status_ = TStatus.ok) := by
  simp [BlobFileIterator.Valid]

theorem valid_false_of_status (it : BlobFileIterator) (h : it.status_ ≠ TStatus.ok) :
    it.Valid = false := by
  simp [BlobFileIterator.Valid, h]

theorem next_eq (f : BlobFile) (it : BlobFileIterator) :
    BlobFileIterator.Next f it =
      BlobFileIterator.PrefetchAndGetGo f (it.end_of_blob_record_ + 1) it := rfl

theorem rest_length_le_end {f : BlobFile} (hWF : WellFormed f) (pre rest : List Slot)
    (hsplit : f.slots = pre ++ rest) : rest.length ≤ endOfBlobRecord f := by
  have h1 : rest.length ≤ sumExt f rest :=
    length_le_sumExt f rest
      (fun sl hsl => wf_slotExtent_pos hWF sl (hsplit ▸ List.mem_append_right _ hsl))
  rw [wf_end_eq hWF, hsplit, sumExt_append]
  omega

theorem positioned_step (f : BlobFile) (hWF : WellFormed f) (it : BlobFileIterator)
    (o : ℕ) (r : BlobRecord) (rem : List (ℕ × BlobRecord))
    (h : Positioned f it ((o, r) :: rem)) :
    it.Valid = true ∧ it.cur_record_offset_ = o ∧ it.cur_blob_record_ = r ∧
    ∃ it', BlobFileIterator.Next f it = some it' ∧ Positioned f it' rem := by
  obtain ⟨hcons, hst, hdisj⟩ := h
  rcases hdisj with ⟨hnil, _, _⟩ | ⟨pre, rest, hsplit, hoff, hval, hrem⟩
  · exact absurd hnil (by simp)
  · obtain ⟨hhead, htail⟩ := List.cons.injEq _ _ _ _ ▸ hrem
    obtain ⟨ho, hr⟩ := Prod.mk.injEq _ _ _ _ ▸ hhead
    have hvld : it.Valid = true := (valid_iff it).mpr ⟨hval, hst⟩
    refine ⟨hvld, ho.symm, hr.symm, ?_⟩
    rw [next_eq]
    obtain ⟨it', hgo, hpo⟩ := pa_spec f hWF rest pre it (it.end_of_blob_record_ + 1)
      hsplit hcons.1 hcons.2.1 hcons.2.2.1 hcons.2.2.2 hoff hst
      (by
        have := rest_length_le_end hWF pre rest hsplit
        rw [hcons.2.2.1]
        omega)
    exact ⟨it', hgo, htail ▸ hpo⟩

theorem collectNexts_succ (f : BlobFile) (fuel : ℕ) (it : BlobFileIterator) :
    collectNexts f (fuel + 1) it =
      if it.Valid then
        match BlobFileIterator.Next f it with
        | none => none
        | some it' =>
            match collectNexts f fuel it' with
            | none => none
            | some (l, itf) =>
                some ((it.cur_record_offset_, it.cur_blob_record_) :: l, itf)
      else some ([], it) := rfl

theorem collect_spec (f : BlobFile) (hWF : WellFormed f) :
    ∀ (rem : List (ℕ × BlobRecord)) (fuel : ℕ) (it : BlobFileIterator),
      Positioned f it rem → rem.length + 1 ≤ fuel →
      ∃ itf, collectNexts f fuel it = some (rem, itf) ∧
        itf.iterate_offset_ = endOfBlobRecord f ∧ itf.Valid = false ∧
        itf.status_ = TStatus.ok := by
  intro rem
  induction rem with
  | nil =>
      intro fuel it hpos hfuel
      obtain ⟨k, rfl⟩ : ∃ k, fuel = k + 1 := ⟨fuel - 1, by omega⟩
      obtain ⟨hcons, hst, hdisj⟩ := hpos
      rcases hdisj with ⟨_, hval, hoffend⟩ | ⟨pre, rest, _, _, _, hrem⟩
      · have hv : it.Valid = false := by simp [BlobFileIterator.Valid, hval]
        refine ⟨it, ?_, hoffend, hv, hst⟩
        rw [collectNexts_succ, if_neg (by simp [hv])]
      · exact absurd hrem (by simp)
  | cons x rem' ih =>
      intro fuel it hpos hfuel
      obtain ⟨k, rfl⟩ : ∃ k, fuel = k + 1 := ⟨fuel - 1, by omega⟩
      obtain ⟨o, r⟩ := x
      obtain ⟨hvld, ho, hr, it', hnext, hpo'⟩ := positioned_step f hWF it o r rem' hpos
      obtain ⟨itf, hcoll, hoffend, hvf, hstf⟩ := ih k it' hpo' (by simpa using hfuel)
      refine ⟨itf, ?_, hoffend, hvf, hstf⟩
      rw [collectNexts_succ, if_pos (by simp [hvld]), hnext]
      dsimp only
      rw [hcoll]
      dsimp only
      rw [ho, hr]

theorem init_spec (f : BlobFile) (hWF : WellFormed f) (it : BlobFileIterator) :
    BlobFileIterator.Init f it =
      ({ it with
          status_ := TStatus.ok
          header_size_ := f.header_size
          end_of_blob_record_ := endOfBlobRecord f
          block_size_ := f.block_size
          init_ := true }, true) := by
  obtain ⟨h1, h2, h3, h4, h5, _, _, _, _⟩ := hWF
  by_cases hd : f.hasDict = true
  · have hdict := h5 hd
    simp [BlobFileIterator.Init, h1, h2, h3, h4, hd, hdict, endOfBlobRecord]
  · have hd' : f.hasDict = false := by simpa using hd
    simp [BlobFileIterator.Init, h1, h2, h3, h4, hd', endOfBlobRecord]

theorem seekToFirst_spec (f : BlobFile) (hWF : WellFormed f) (it : BlobFileIterator)
    (h : it.init_ = false ∨ Consistent f it) :
    ∃ it', BlobFileIterator.SeekToFirst f it = some it' ∧
      Positioned f it' (liveList f (recStart f) f.slots) := by
  have hcore : ∀ it₂ : BlobFileIterator, Consistent f it₂ → it₂.status_ = TStatus.ok →
      it₂.iterate_offset_ = recStart f →
      ∃ it', BlobFileIterator.PrefetchAndGet f it₂ = some it' ∧
        Positioned f it' (liveList f (recStart f) f.slots) := by
    intro it₂ hcons hst hoff
    obtain ⟨it', hgo, hpo⟩ := pa_spec f hWF f.slots [] it₂ (it₂.end_of_blob_record_ + 1)
      (by simp) hcons.1 hcons.2.1 hcons.2.2.1 hcons.2.2.2
      (by rw [hoff, sumExt_nil]; omega)
      hst
      (by
        have := rest_length_le_end hWF [] f.slots (by simp)
        rw [hcons.2.2.1]
        omega)
    rw [hoff] at hpo
    exact ⟨it', hgo, hpo⟩
  rcases h with hinit | hcons
  · have hstep : BlobFileIterator.SeekToFirst f it =
        BlobFileIterator.PrefetchAndGet f
          { it with
              status_ := TStatus.ok
              header_size_ := f.header_size
              end_of_blob_record_ := endOfBlobRecord f
              block_size_ := f.block_size
              init_ := true
              iterate_offset_ := recStart f } := by
      unfold BlobFileIterator.SeekToFirst
      rw [hinit, init_spec f hWF it]
      simp [recStart]
    rw [hstep]
    exact hcore _ ⟨rfl, rfl, rfl, rfl⟩ rfl rfl
  · obtain ⟨hi, hb, he, hh⟩ := hcons
    have hstep : BlobFileIterator.SeekToFirst f it =
        BlobFileIterator.PrefetchAndGet f
          { it with
              status_ := TStatus.ok
              iterate_offset_ :=
                if it.block_size_ ≠ 0 then Roundup it.header_size_ it.block_size_
                else it.header_size_ } := by
      unfold BlobFileIterator.SeekToFirst
      rw [hi]
      simp [hi]
    rw [hstep]
    refine hcore _ ⟨hi, hb, he, hh⟩ rfl ?_
    show (if it.block_size_ ≠ 0 then Roundup it.header_size_ it.block_size_
        else it.header_size_) = recStart f
    rw [hb, hh, recStart]

theorem liveList_lb (f : BlobFile) :
    ∀ (l : List Slot) (o : ℕ) (p : ℕ × BlobRecord), p ∈ liveList f o l → o ≤ p.1 := by
  intro l
  induction l with
  | nil => intro o p hp; simp [liveList_nil] at hp
  | cons sl rest ih =>
      intro o p hp
      cases sl with
      | hole =>
          rw [liveList_cons_hole] at hp
          have := ih _ p hp
          omega
      | live r sz =>
          rw [liveList_cons_live] at hp
          rcases List.mem_cons.mp hp with h | h
          · simp [h]
          · have := ih _ p h
            omega

theorem liveList_chain (f : BlobFile) :
    ∀ (l : List Slot), (∀ sl ∈ l, 1 ≤ slotExtent f sl) →
      ∀ o, List.Chain' (· < ·) ((liveList f o l).map Prod.fst) := by
  intro l
  induction l with
  | nil => intro _ o; simp [liveList_nil]
  | cons sl rest ih =>
      intro hpos o
      have hpos' : ∀ x ∈ rest, 1 ≤ slotExtent f x :=
        fun x hx => hpos x (List.mem_cons_of_mem _ hx)
      cases sl with
      | hole =>
          rw [liveList_cons_hole]
          exact ih hpos' _
      | live r sz =>
          rw [liveList_cons_live]
          rw [List.map_cons, List.chain'_cons']
          refine ⟨?_, ih hpos' _⟩
          intro b hb
          have hmem : b ∈ (liveList f (o + slotExtent f (Slot.live r sz)) rest).map
              Prod.fst := List.mem_of_mem_head? hb
          obtain ⟨p, hp, rfl⟩ := List.mem_map.mp hmem
          have h1 := liveList_lb f rest _ p hp
          have h2 := hpos (Slot.live r sz) (List.mem_cons_self _ _)
          omega

/-- C1 core: over a well-formed file, `SeekToFirst` then repeated `Next`
emits exactly the live records in layout order with strictly ascending
start offsets, finishing invalid with the cursor at the boundary. -/
theorem scanTrace_spec (f : BlobFile) (hWF : WellFormed f) :
    ∃ itf, scanTrace f = some (liveList f (recStart f) f.slots, itf) ∧
      itf.iterate_offset_ = endOfBlobRecord f ∧ itf.Valid = false ∧
      List.Chain' (· < ·) ((liveList f (recStart f) f.slots).map Prod.fst) := by
  obtain ⟨it₁, hseek, hpo⟩ := seekToFirst_spec f hWF initIter (Or.inl rfl)
  have hlen : (liveList f (recStart f) f.slots).length + 1 ≤ f.slots.length + 1 := by
    have : ∀ (l : List Slot) (o : ℕ), (liveList f o l).length ≤ l.length := by
      intro l
      induction l with
      | nil => intro o; simp [liveList_nil]
      | cons sl rest ih =>
          intro o
          cases sl with
          | hole => rw [liveList_cons_hole]; have := ih (o + slotExtent f Slot.hole); simp; omega
          | live r sz =>
              rw [liveList_cons_live]
              have := ih (o + slotExtent f (Slot.live r sz))
              simp
              omega
    have := this f.slots (recStart f)
    omega
  obtain ⟨itf, hcoll, hend, hval, _⟩ :=
    collect_spec f hWF (liveList f (recStart f) f.slots) (f.slots.length + 1) it₁ hpo hlen
  refine ⟨itf, ?_, hend, hval, liveList_chain f f.slots (wf_slotExtent_pos hWF) _⟩
  unfold scanTrace
  rw [hseek]
  exact hcoll

theorem ifpGo_succ (f : BlobFile) (target bs fuel off tl : ℕ) :
    BlobFileIterator.IterateForPrevGo f target bs (fuel + 1) off tl =
      if off < target then
        match slotAt f off with
        | none => some (TStatus.corruption, off, tl)
        | some sl =>
            let len := kRecordHeaderSize + sizeField sl
            let tl' := if bs ≠ 0 then Roundup len bs else len
            BlobFileIterator.IterateForPrevGo f target bs fuel (off + tl') tl'
      else some (TStatus.ok, off, tl) := rfl

/-- The header walk of `IterateForPrev` over a hole-free well-formed
file: started at a slot boundary at or below the target it stops with an
ok status at the first boundary at or past the target, and rewinding by
the last record length (when it overshot) lands exactly on the start of
the slot containing the target. -/
theorem ifp_walk (f : BlobFile) (hWF : WellFormed f) (hnf : Slot.hole ∉ f.slots)
    (t : ℕ) (hlt : t < endOfBlobRecord f) :
    ∀ (rest pre : List Slot) (off tl fuel : ℕ),
      f.slots = pre ++ rest → off = recStart f + sumExt f pre →
      off ≤ t → t - off + 1 ≤ fuel →
      ∃ offF tlF, BlobFileIterator.IterateForPrevGo f t f.block_size fuel off tl =
          some (TStatus.ok, offF, tlF) ∧
        ∃ pre₂ sl rest₂, f.slots = pre₂ ++ sl :: rest₂ ∧
          (if offF > t then offF - tlF else offF) = recStart f + sumExt f pre₂ ∧
          recStart f + sumExt f pre₂ ≤ t ∧
          t < recStart f + sumExt f pre₂ + slotExtent f sl := by
  intro rest
  induction rest with
  | nil =>
      intro pre off tl fuel hsplit hoff hle hfuel
      exfalso
      have h1 : endOfBlobRecord f = off := by
        rw [wf_end_eq hWF, hsplit, List.append_nil, hoff]
      omega
  | cons sl rest' ih =>
      intro pre off tl fuel hsplit hoff hle hfuel
      obtain ⟨k, rfl⟩ : ∃ k, fuel = k + 1 := ⟨fuel - 1, by omega⟩
      have hpos : ∀ x ∈ f.slots, 1 ≤ slotExtent f x := wf_slotExtent_pos hWF
      have hmemsl : sl ∈ f.slots := by
        rw [hsplit]; exact List.mem_append_right _ (List.mem_cons_self _ _)
      have hext : 1 ≤ slotExtent f sl := hpos sl hmemsl
      by_cases hofft : off < t
      · have hsl : slotAt f off = some sl := by
          rw [hoff]; exact slotAt_boundary f pre rest' sl hsplit hpos
        cases sl with
        | hole => exact absurd hmemsl hnf
        | live r sz =>
            have hstep : BlobFileIterator.IterateForPrevGo f t f.block_size (k + 1) off tl =
                BlobFileIterator.IterateForPrevGo f t f.block_size k
                  (off + slotExtent f (Slot.live r sz)) (slotExtent f (Slot.live r sz)) := by
              rw [ifpGo_succ, if_pos hofft, hsl]
              dsimp only
              rw [show (if f.block_size ≠ 0 then
                    Roundup (kRecordHeaderSize + sizeField (Slot.live r sz)) f.block_size
                  else kRecordHeaderSize + sizeField (Slot.live r sz)) =
                  slotExtent f (Slot.live r sz) by
                simp [sizeField, slotExtent_live]]
            by_cases hnext : off + slotExtent f (Slot.live r sz) ≤ t
            · have hsplit2 : f.slots = (pre ++ [Slot.live r sz]) ++ rest' := by
                rw [hsplit]; simp
              have hoff2 : off + slotExtent f (Slot.live r sz) =
                  recStart f + sumExt f (pre ++ [Slot.live r sz]) := by
                rw [hoff, sumExt_append, sumExt_cons, sumExt_nil]
                omega
              obtain ⟨offF, tlF, hgo, hconc⟩ := ih (pre ++ [Slot.live r sz])
                (off + slotExtent f (Slot.live r sz)) (slotExtent f (Slot.live r sz)) k
                hsplit2 hoff2 hnext (by omega)
              exact ⟨offF, tlF, hstep.trans hgo, hconc⟩
            · obtain ⟨k', rfl⟩ : ∃ k', k = k' + 1 := ⟨k - 1, by omega⟩
              refine ⟨off + slotExtent f (Slot.live r sz), slotExtent f (Slot.live r sz),
                ?_, pre, Slot.live r sz, rest', hsplit, ?_, by omega, by omega⟩
              · rw [hstep, ifpGo_succ, if_neg (by omega)]
              · rw [if_pos (by omega)]
                rw [hoff]
                omega
      · have hofft' : off = t := by omega
        refine ⟨off, tl, ?_, pre, sl, rest', hsplit, ?_, by omega, by omega⟩
        · rw [ifpGo_succ, if_neg hofft]
        · rw [if_neg (by omega), hoff]

/-- Among all slot starts, the one found by the rewind is the greatest at
or below the target. -/
theorem slotAt_greatest (f : BlobFile) (pre₂ : List Slot) (sl : Slot)
    (rest₂ : List Slot) (hsplit : f.slots = pre₂ ++ sl :: rest₂) (t : ℕ)
    (hlt : t < recStart f + sumExt f pre₂ + slotExtent f sl) :
    ∀ q sl', slotAt f q = some sl' → q ≤ t → q ≤ recStart f + sumExt f pre₂ := by
  intro q sl' hq hqle
  obtain ⟨pre_q, rest_q, hsp_q, hq_eq⟩ := slotAt_inv f q sl' hq
  have hcomb : pre_q ++ sl' :: rest_q = pre₂ ++ sl :: rest₂ := by
    rw [← hsp_q, ← hsplit]
  rcases boundary_cases f pre_q (sl' :: rest_q) pre₂ sl rest₂ hcomb with h | h
  · omega
  · omega

/-- `IterateForPrev(t)` on an initialized scanner over a hole-free
well-formed file, for a target inside the record region: it parks the
(invalid) cursor on the greatest slot start at or below `t`, and the
following `Next` materializes exactly that record. -/
theorem iterateForPrev_spec (f : BlobFile) (hWF : WellFormed f)
    (hnf : Slot.hole ∉ f.slots) (it : BlobFileIterator) (hcons : Consistent f it)
    (t : ℕ) (hge : recStart f ≤ t) (hlt : t < endOfBlobRecord f) :
    ∃ b r sz, slotAt f b = some (Slot.live r sz) ∧ b ≤ t ∧
      (∀ q sl', slotAt f q = some sl' → q ≤ t → q ≤ b) ∧
      ∃ it₁, BlobFileIterator.IterateForPrev f t it = some it₁ ∧
        it₁.Valid = false ∧ it₁.valid_ = false ∧ it₁.status_ = TStatus.ok ∧
        it₁.iterate_offset_ = b ∧
        ∃ it₂, BlobFileIterator.Next f it₁ = some it₂ ∧ it₂.Valid = true ∧
          it₂.cur_record_offset_ = b ∧ it₂.cur_blob_record_ = r := by
  obtain ⟨hi, hb, he, hh⟩ := hcons
  obtain ⟨offF, tlF, hgo, pre₂, sl, rest₂, hsplit, hland, hble, hblt⟩ :=
    ifp_walk f hWF hnf t hlt f.slots [] (recStart f) 0 (t + 1) (by simp)
      (by rw [sumExt_nil]; omega) hge (by omega)
  have hmemsl : sl ∈ f.slots := by
    rw [hsplit]; exact List.mem_append_right _ (List.mem_cons_self _ _)
  cases sl with
  | hole => exact absurd hmemsl hnf
  | live r sz =>
      have hsz : sz ≠ 0 := by
        rcases wf_live_pos hWF _ hmemsl with h | h
        · exact absurd h (by simp)
        · simpa [sizeField] using Nat.pos_iff_ne_zero.mp h
      set b := recStart f + sumExt f pre₂ with hbdef
      have hslb : slotAt f b = some (Slot.live r sz) :=
        slotAt_boundary f pre₂ rest₂ _ hsplit (wf_slotExtent_pos hWF)
      have hstart : (if f.block_size > 0 then Roundup f.header_size f.block_size
          else f.header_size) = recStart f := by
        rw [recStart]
        by_cases h0 : f.block_size = 0
        · simp [h0]
        · simp [h0, Nat.pos_of_ne_zero h0]
      have hguard : (if ¬ it.init_ then BlobFileIterator.Init f it else (it, true)) =
          (it, true) := by
        rw [hi]; simp
      have hstep : BlobFileIterator.IterateForPrev f t it =
          some { it with status_ := TStatus.ok, iterate_offset_ := b, valid_ := false } := by
        unfold BlobFileIterator.IterateForPrev
        rw [hguard]
        dsimp only
        rw [if_neg (by simp)]
        rw [if_neg (show ¬ t ≥ it.end_of_blob_record_ by rw [he]; omega)]
        rw [hb, hh]
        rw [hstart]
        rw [hgo]
        dsimp only
        rw [if_neg (by simp)]
        rw [hland]
      refine ⟨b, r, sz, hslb, hble, slotAt_greatest f pre₂ _ rest₂ hsplit t hblt, ?_⟩
      refine ⟨_, hstep, by simp [BlobFileIterator.Valid], rfl, rfl, rfl, ?_⟩
      obtain ⟨it₂, hgo₂, hpo₂⟩ := pa_spec f hWF (Slot.live r sz :: rest₂) pre₂
        { it with status_ := TStatus.ok, iterate_offset_ := b, valid_ := false }
        (({ it with status_ := TStatus.ok, iterate_offset_ := b, valid_ := false } : BlobFileIterator).end_of_blob_record_ + 1)
        hsplit hi hb he hh rfl rfl
        (by
          show (Slot.live r sz :: rest₂).length + 1 ≤ it.end_of_blob_record_ + 1
          have := rest_length_le_end hWF pre₂ _ hsplit
          rw [he]
          omega)
      refine ⟨it₂, hgo₂, ?_⟩
      obtain ⟨hcons₂, hst₂, hdisj₂⟩ := hpo₂
      have hoffb : ({ it with status_ := TStatus.ok, iterate_offset_ := b, valid_ := false } : BlobFileIterator).iterate_offset_ = b := rfl
      have hrem : liveList f b (Slot.live r sz :: rest₂) =
          (b, r) :: liveList f (b + slotExtent f (Slot.live r sz)) rest₂ :=
        liveList_cons_live f b r sz rest₂
      rcases hdisj₂ with ⟨hnil, _, _⟩ | ⟨pre₃, rest₃, _, _, hval₂, hrem₂⟩
      · rw [hoffb, hrem] at hnil
        exact absurd hnil (by simp)
      · rw [hoffb, hrem] at hrem₂
        obtain ⟨hhead, _⟩ := List.cons.injEq _ _ _ _ ▸ hrem₂
        obtain ⟨ho₂, hr₂⟩ := Prod.mk.injEq _ _ _ _ ▸ hhead
        exact ⟨(valid_iff it₂).mpr ⟨hval₂, hst₂⟩, ho₂.symm, hr₂.symm⟩

theorem getBlobRecord_at_punch (f : BlobFile) (it : BlobFileIterator) (sl : Slot)
    (h : slotAt f it.iterate_offset_ = some sl) (hsz : sizeField sl = 0) :
    BlobFileIterator.GetBlobRecord f it = ({ it with status_ := TStatus.ok }, false) := by
  unfold BlobFileIterator.GetBlobRecord
  dsimp only
  rw [h]
  cases sl with
  | hole => rfl
  | live r sz =>
      have : sz = 0 := by simpa [sizeField] using hsz
      subst this
      rfl

theorem go_step_punch (f : BlobFile) (fuel : ℕ) (it : BlobFileIterator) (sl : Slot)
    (h : slotAt f it.iterate_offset_ = some sl) (hsz : sizeField sl = 0)
    (hlt : it.iterate_offset_ < it.end_of_blob_record_) :
    ∃ it2, BlobFileIterator.PrefetchAndGetGo f (fuel + 1) it =
        BlobFileIterator.PrefetchAndGetGo f fuel it2 ∧
      it2.iterate_offset_ = it.iterate_offset_ + it.block_size_ ∧
      it2.status_ = TStatus.ok ∧ it2.valid_ = it.valid_ ∧ it2.init_ = it.init_ ∧
      it2.header_size_ = it.header_size_ ∧
      it2.end_of_blob_record_ = it.end_of_blob_record_ ∧
      it2.block_size_ = it.block_size_ ∧
      it2.cur_blob_record_ = it.cur_blob_record_ ∧
      it2.cur_record_offset_ = it.cur_record_offset_ ∧
      it2.cur_record_size_ = it.cur_record_size_ := by
  have hpre : slotAt f (BlobFileIterator.prefetchUpdate f it).iterate_offset_ = some sl := h
  rw [go_succ, if_pos hlt, getBlobRecord_at_punch f _ sl hpre hsz]
  dsimp only
  exact ⟨_, rfl, rfl, rfl, rfl, rfl, rfl, rfl, rfl, rfl, rfl, rfl⟩

/-- Termination of the scan loop when a block size is configured: every
continuation advances the cursor by `block_size_ ≥ 1`. -/
theorem go_terminates_pos (f : BlobFile) :
    ∀ (fuel : ℕ) (it : BlobFileIterator),
      it.end_of_blob_record_ - it.iterate_offset_ < fuel → 1 ≤ it.block_size_ →
      (BlobFileIterator.PrefetchAndGetGo f fuel it).isSome := by
  intro fuel
  induction fuel with
  | zero => intro it h _; omega
  | succ k ih =>
      intro it hfuel hbs
      by_cases hlt : it.iterate_offset_ < it.end_of_blob_record_
      · match hsl : slotAt f it.iterate_offset_ with
        | none =>
            obtain ⟨it', heq, _⟩ := go_step_none f k it hsl hlt
            simp [heq]
        | some sl =>
            by_cases hsz : sizeField sl = 0
            · obtain ⟨it2, heq, ho, _, _, _, _, he2, hb2, _⟩ :=
                go_step_punch f k it sl hsl hsz hlt
              rw [heq]
              exact ih it2 (by omega) (by omega)
            · cases sl with
              | hole => exact absurd (show sizeField Slot.hole = 0 from rfl) hsz
              | live r sz =>
                  obtain ⟨it', heq, _⟩ := go_step_live f k it r sz hsl
                    (by simpa [sizeField] using hsz) hlt
                  simp [heq]
      · rw [go_at_end f k it hlt]
        rfl

/-- Divergence of the scan loop on a hole-punch marker with no block
size: the cursor never moves. -/
theorem go_diverges (f : BlobFile) (it : BlobFileIterator) (sl : Slot)
    (hbs : it.block_size_ = 0) (hsl : slotAt f it.iterate_offset_ = some sl)
    (hsz : sizeField sl = 0) (hlt : it.iterate_offset_ < it.end_of_blob_record_) :
    ∀ fuel, BlobFileIterator.PrefetchAndGetGo f fuel it = none := by
  intro fuel
  induction fuel generalizing it with
  | zero => rfl
  | succ k ih =>
      obtain ⟨it2, heq, ho, _, _, _, _, he2, hb2, _⟩ := go_step_punch f k it sl hsl hsz hlt
      rw [heq]
      exact ih it2 (by omega) (by rw [ho, hbs, Nat.add_zero]; exact hsl) (by omega)

/-- Termination of the scan loop when the file carries no hole-punch
markers: the very first iteration yields, fails or exhausts. -/
theorem go_total_nopunch (f : BlobFile) (hnp : ∀ sl ∈ f.slots, sizeField sl ≠ 0)
    (fuel : ℕ) (it : BlobFileIterator) :
    (BlobFileIterator.PrefetchAndGetGo f (fuel + 1) it).isSome := by
  by_cases hlt : it.iterate_offset_ < it.end_of_blob_record_
  · match hsl : slotAt f it.iterate_offset_ with
    | none =>
        obtain ⟨it', heq, _⟩ := go_step_none f fuel it hsl hlt
        simp [heq]
    | some sl =>
        have hsz : sizeField sl ≠ 0 := hnp sl (slotAt_mem f _ sl hsl)
        cases sl with
        | hole => exact absurd (show sizeField Slot.hole = 0 from rfl) hsz
        | live r sz =>
            obtain ⟨it', heq, _⟩ := go_step_live f fuel it r sz hsl
              (by simpa [sizeField] using hsz) hlt
            simp [heq]
  · rw [go_at_end f fuel it hlt]
    rfl

/-- A failed `Init` leaves `init_`, `valid_` and the cursor untouched,
returns `false` and a non-ok status. -/
theorem init_fail_spec (f : BlobFile)
    (hfail : f.headerReadOk = false ∨ f.headerDecodeOk = false ∨
      f.footerReadOk = false ∨ (f.hasDict = true ∧ f.dictFetchOk = false))
    (it : BlobFileIterator) :
    (BlobFileIterator.Init f it).2 = false ∧
    ((BlobFileIterator.Init f it).1.status_ = TStatus.ioError ∨
      (BlobFileIterator.Init f it).1.status_ = TStatus.corruption) ∧
    (BlobFileIterator.Init f it).1.init_ = it.init_ ∧
    (BlobFileIterator.Init f it).1.valid_ = it.valid_ ∧
    (BlobFileIterator.Init f it).1.iterate_offset_ = it.iterate_offset_ := by
  rcases Bool.eq_false_or_eq_true f.headerReadOk with h1 | h1
  swap
  · simp [BlobFileIterator.Init, h1]
  rcases Bool.eq_false_or_eq_true f.headerDecodeOk with h2 | h2
  swap
  · simp [BlobFileIterator.Init, h1, h2]
  rcases Bool.eq_false_or_eq_true f.footerReadOk with h3 | h3
  swap
  · simp [BlobFileIterator.Init, h1, h2, h3]
  have h4 : f.hasDict = true ∧ f.dictFetchOk = false := by
    rcases hfail with h | h | h | h
    · rw [h1] at h; exact absurd h (by simp)
    · rw [h2] at h; exact absurd h (by simp)
    · rw [h3] at h; exact absurd h (by simp)
    · exact h
  simp [BlobFileIterator.Init, h1, h2, h3, h4.1, h4.2]

/-- Any single operation on a scanner whose `Init` keeps failing
preserves the unusable state. -/
theorem op_unusable (f : BlobFile) (h0 : 0 < f.header_size)
    (hfail : f.headerReadOk = false ∨ f.headerDecodeOk = false ∨
      f.footerReadOk = false ∨ (f.hasDict = true ∧ f.dictFetchOk = false))
    (it : BlobFileIterator) (h1 : it.init_ = false) (h2 : it.valid_ = false)
    (h3 : it.iterate_offset_ = 0) (op : IterOp) :
    ∀ it', runIterOp f it op = some it' →
      it'.init_ = false ∧ it'.valid_ = false ∧ it'.iterate_offset_ = 0 := by
  have hfs := init_fail_spec f hfail it
  have hguard : (if ¬ it.init_ then BlobFileIterator.Init f it else (it, true)) =
      BlobFileIterator.Init f it := by
    rw [h1]; simp
  cases op with
  | seekToFirst =>
      intro it' hop
      have : BlobFileIterator.SeekToFirst f it = some (BlobFileIterator.Init f it).1 := by
        unfold BlobFileIterator.SeekToFirst
        rw [hguard]
        rw [if_pos (by simp [hfs.1])]
      rw [runIterOp] at hop
      rw [this] at hop
      obtain rfl : (BlobFileIterator.Init f it).1 = it' := by simpa using hop
      exact ⟨hfs.2.2.1.trans h1, hfs.2.2.2.1.trans h2, hfs.2.2.2.2.trans h3⟩
  | next =>
      intro it' hop
      rw [runIterOp, next_eq] at hop
      by_cases hlt : it.iterate_offset_ < it.end_of_blob_record_
      · have hsl : slotAt f it.iterate_offset_ = none := by
          rw [h3]; exact slotAt_zero f h0
        obtain ⟨k, hk⟩ : ∃ k, it.end_of_blob_record_ + 1 = k + 1 := ⟨_, rfl⟩
        rw [hk] at hop
        obtain ⟨it₂, heq, ho, _, hv, hi⟩ := go_step_none f k it hsl hlt
        rw [heq] at hop
        obtain rfl : it₂ = it' := by simpa using hop
        exact ⟨hi.trans h1, hv.trans h2, ho.trans h3⟩
      · rw [go_at_end f it.end_of_blob_record_ it hlt] at hop
        obtain rfl : ({ it with valid_ := false } : BlobFileIterator) = it' := by
          simpa using hop
        exact ⟨h1, rfl, h3⟩
  | iterateForPrev t =>
      intro it' hop
      have : BlobFileIterator.IterateForPrev f t it = some (BlobFileIterator.Init f it).1 := by
        unfold BlobFileIterator.IterateForPrev
        rw [hguard]
        rw [if_pos (by simp [hfs.1])]
      rw [runIterOp] at hop
      rw [this] at hop
      obtain rfl : (BlobFileIterator.Init f it).1 = it' := by simpa using hop
      exact ⟨hfs.2.2.1.trans h1, hfs.2.2.2.1.trans h2, hfs.2.2.2.2.trans h3⟩

/-- Over a file whose `Init` keeps failing, no operation sequence ever
leaves the fresh scanner in a usable state. -/
theorem runIterOps_unusable (f : BlobFile) (h0 : 0 < f.header_size)
    (hfail : f.headerReadOk = false ∨ f.headerDecodeOk = false ∨
      f.footerReadOk = false ∨ (f.hasDict = true ∧ f.dictFetchOk = false)) :
    ∀ (ops : List IterOp) (it : BlobFileIterator),
      it.init_ = false → it.valid_ = false → it.iterate_offset_ = 0 →
      ∀ it', runIterOps f ops it = some it' →
        it'.init_ = false ∧ it'.valid_ = false ∧ it'.iterate_offset_ = 0 := by
  intro ops
  induction ops with
  | nil =>
      intro it h1 h2 h3 it' h
      obtain rfl : it = it' := by simpa [runIterOps] using h
      exact ⟨h1, h2, h3⟩
  | cons op ops ih =>
      intro it h1 h2 h3 it' hrun
      rw [runIterOps] at hrun
      obtain ⟨it₁, hop, hrest⟩ := Option.bind_eq_some.mp hrun
      obtain ⟨g1, g2, g3⟩ := op_unusable f h0 hfail it h1 h2 h3 op it₁ hop
      exact ih it₁ g1 g2 g3 it' hrest

/-! ### List bookkeeping helpers for the merge proof -/

theorem list_getD_set_self {α : Type _} :
    ∀ (l : List α) (i : ℕ) (a d : α), i < l.length → (l.set i a).getD i d = a := by
  intro l
  induction l with
  | nil => intro i a d h; simp at h
  | cons x tl ih =>
      intro i a d h
      cases i with
      | zero => rfl
      | succ j => exact ih j a d (by simpa using h)

theorem list_getD_set_ne {α : Type _} :
    ∀ (l : List α) (i j : ℕ) (a d : α), i ≠ j → (l.set i a).getD j d = l.getD j d := by
  intro l
  induction l with
  | nil => intro i j a d _; simp
  | cons x tl ih =>
      intro i j a d hne
      cases i with
      | zero =>
          cases j with
          | zero => exact absurd rfl hne
          | succ j' => rfl
      | succ i' =>
          cases j with
          | zero => rfl
          | succ j' => exact ih i' j' a d (by omega)

theorem list_map_set {α β : Type _} (g : α → β) :
    ∀ (l : List α) (i : ℕ) (a : α), (l.set i a).map g = (l.map g).set i (g a) := by
  intro l
  induction l with
  | nil => intro i a; rfl
  | cons x tl ih =>
      intro i a
      cases i with
      | zero => rfl
      | succ j => simp [ih j a]

theorem list_join_set_cons {α : Type _} :
    ∀ (L : List (List α)) (i : ℕ) (x : α) (t : List α),
      i < L.length → L.getD i [] = x :: t →
      L.join.Perm (x :: (L.set i t).join) := by
  intro L
  induction L with
  | nil => intro i x t h; simp at h
  | cons l₀ L' ih =>
      intro i x t hi hget
      cases i with
      | zero =>
          have : l₀ = x :: t := hget
          subst this
          simp [List.join]
      | succ j =>
          have hj : j < L'.length := by simpa using hi
          have hstep := ih j x t hj hget
          exact (hstep.append_left l₀).trans List.perm_middle

theorem list_join_nil_of_all {α : Type _} :
    ∀ (L : List (List α)), (∀ l ∈ L, l = []) → L.join = [] := by
  intro L
  induction L with
  | nil => intro _; rfl
  | cons l₀ L' ih =>
      intro h
      have h0 : l₀ = [] := h l₀ (List.mem_cons_self _ _)
      have := ih (fun l hl => h l (List.mem_cons_of_mem _ hl))
      simp [h0, this]

theorem list_join_nil_of_all_idx {α : Type _} :
    ∀ (L : List (List α)), (∀ i, i < L.length → L.getD i [] = []) → L.join = [] := by
  intro L
  induction L with
  | nil => intro _; rfl
  | cons l₀ L' ih =>
      intro h
      have h0 : l₀ = [] := h 0 (by simp)
      have := ih (fun i hi => h (i + 1) (by simpa using hi))
      simp [h0, this]

theorem list_sum_len_set {α : Type _} :
    ∀ (L : List (List α)) (i : ℕ) (x : α) (t : List α),
      i < L.length → L.getD i [] = x :: t →
      ((L.set i t).map List.length).sum + 1 = (L.map List.length).sum := by
  intro L
  induction L with
  | nil => intro i x t h; simp at h
  | cons l₀ L' ih =>
      intro i x t hi hget
      cases i with
      | zero =>
          have : l₀ = x :: t := hget
          subst this
          simp
          omega
      | succ j =>
          have hj : j < L'.length := by simpa using hi
          have := ih j x t hj hget
          simp at this ⊢
          omega

theorem popMin_nil (states : List BlobFileIterator) : popMin states [] = none := rfl

theorem popMin_cons (states : List BlobFileIterator) (i : ℕ) (rest : List ℕ) :
    popMin states (i :: rest) =
      match popMin states rest with
      | none => some (i, [])
      | some (j, rest') =>
          if heapKey states i ≤ heapKey states j then some (i, rest)
          else some (j, i :: rest') := rfl

theorem popMin_eq_none (states : List BlobFileIterator) :
    ∀ heap, popMin states heap = none → heap = [] := by
  intro heap h
  cases heap with
  | nil => rfl
  | cons a rest =>
      rw [popMin_cons] at h
      rcases hrest : popMin states rest with _ | ⟨j, rest'⟩ <;> rw [hrest] at h
      · simp at h
      · by_cases hle : heapKey states a ≤ heapKey states j <;> simp [hle] at h

theorem popMin_spec (states : List BlobFileIterator) :
    ∀ (heap : List ℕ) (i : ℕ) (h' : List ℕ), popMin states heap = some (i, h') →
      i ∈ heap ∧ heap.Perm (i :: h') ∧
      ∀ j ∈ heap, heapKey states i ≤ heapKey states j := by
  intro heap
  induction heap with
  | nil => intro i h' h; simp [popMin_nil] at h
  | cons a rest ih =>
      intro i h' h
      rw [popMin_cons] at h
      rcases hrest : popMin states rest with _ | ⟨j, rest'⟩ <;> rw [hrest] at h
      · simp at h
        obtain ⟨rfl, rfl⟩ := h
        have hrnil : rest = [] := popMin_eq_none states rest hrest
        subst hrnil
        exact ⟨List.mem_cons_self _ _, List.Perm.refl _, by
          intro j hj
          simp at hj
          subst hj
          exact Nat.le_refl _⟩
      · obtain ⟨hmj, hpj, hminj⟩ := ih j rest' hrest
        dsimp only at h
        by_cases hle : heapKey states a ≤ heapKey states j
        · rw [if_pos hle] at h
          simp at h
          obtain ⟨rfl, rfl⟩ := h
          refine ⟨List.mem_cons_self _ _, List.Perm.refl _, ?_⟩
          intro j' hj'
          rcases List.mem_cons.mp hj' with rfl | hj'
          · exact Nat.le_refl _
          · exact Nat.le_trans hle (hminj j' hj')
        · rw [if_neg hle] at h
          simp at h
          obtain ⟨rfl, rfl⟩ := h
          refine ⟨List.mem_cons_of_mem _ hmj, ?_, ?_⟩
          · exact (hpj.cons a).trans (List.Perm.swap j a rest')
          · intro j' hj'
            rcases List.mem_cons.mp hj' with rfl | hj'
            · exact Nat.le_of_not_le hle
            · exact hminj j' hj'

theorem positioned_valid_iff (f : BlobFile) (it : BlobFileIterator)
    (rem : List (ℕ × BlobRecord)) (h : Positioned f it rem) :
    it.Valid = true ↔ rem ≠ [] := by
  obtain ⟨_, hst, hdisj⟩ := h
  rcases hdisj with ⟨hrnil, hval, _⟩ | ⟨_, _, _, _, hval, hrem⟩
  · subst hrnil
    simp [BlobFileIterator.Valid, hval]
  · subst hrem
    simp [BlobFileIterator.Valid, hval, hst]

theorem seekAll_spec (fs : List BlobFile) (hWF : ∀ f ∈ fs, WellFormed f) :
    ∃ states, BlobFileMergeIterator.seekAll fs = some states ∧
      states.length = fs.length ∧
      ∀ i, i < fs.length →
        Positioned (fs.getD i dummyBlobFile) (states.getD i initIter)
          (liveList (fs.getD i dummyBlobFile) (recStart (fs.getD i dummyBlobFile))
            (fs.getD i dummyBlobFile).slots) := by
  induction fs with
  | nil => exact ⟨[], rfl, rfl, by intro i hi; simp at hi⟩
  | cons f fs ih =>
      obtain ⟨states, hseekall, hlen, hpos⟩ :=
        ih (fun g hg => hWF g (List.mem_cons_of_mem _ hg))
      obtain ⟨it, hseek, hposf⟩ :=
        seekToFirst_spec f (hWF f (List.mem_cons_self _ _)) initIter (Or.inl rfl)
      refine ⟨it :: states, ?_, by simp [hlen], ?_⟩
      · unfold BlobFileMergeIterator.seekAll
        rw [hseek, hseekall]
      · intro i hi
        cases i with
        | zero => simpa using hposf
        | succ j => simpa using hpos j (by simpa using hi)

theorem mergeCollect_succ (fs : List BlobFile) (fuel : ℕ) (m : BlobFileMergeIterator) :
    mergeCollect fs (fuel + 1) m =
      if m.Valid then
        match BlobFileMergeIterator.Next fs m with
        | none => none
        | some m' =>
            match mergeCollect fs fuel m' with
            | none => none
            | some l => some (m.currentRecord :: l)
      else some [] := rfl

theorem mergeNext_eq (fs : List BlobFile) (m : BlobFileMergeIterator) (c : ℕ)
    (hc : m.current_ = some c) (it' : BlobFileIterator)
    (hn : BlobFileIterator.Next (fs.getD c dummyBlobFile) (m.states.getD c initIter) =
      some it') :
    BlobFileMergeIterator.Next fs m =
      (match popMin (m.states.set c it')
          (if (it'.status_ == TStatus.ok) && it'.Valid then m.min_heap_ ++ [c]
           else m.min_heap_) with
       | some (c', h') =>
           some { m with
                    states := m.states.set c it'
                    min_heap_ := h'
                    current_ := some c' }
       | none =>
           some { m with
                    states := m.states.set c it'
                    min_heap_ := []
                    current_ := none }) := by
  unfold BlobFileMergeIterator.Next
  rw [hc]
  dsimp only
  rw [hn]
  rfl

theorem positioned_cur (f : BlobFile) (it : BlobFileIterator) (o : ℕ) (r : BlobRecord)
    (rem' : List (ℕ × BlobRecord)) (h : Positioned f it ((o, r) :: rem')) :
    it.cur_record_offset_ = o ∧ it.cur_blob_record_ = r ∧ it.valid_ = true ∧
    it.status_ = TStatus.ok := by
  obtain ⟨_, hst, hdisj⟩ := h
  rcases hdisj with ⟨hnil, _, _⟩ | ⟨_, _, _, _, hval, hrem⟩
  · exact absurd hnil (by simp)
  · obtain ⟨hhead, _⟩ := List.cons.injEq _ _ _ _ ▸ hrem
    obtain ⟨ho, hr⟩ := Prod.mk.injEq _ _ _ _ ▸ hhead
    exact ⟨ho.symm, hr.symm, hval, hst⟩

theorem getD_mem_of_lt {α : Type _} (l : List α) (i : ℕ) (d : α) (h : i < l.length) :
    l.getD i d ∈ l := by
  rw [List.getD_eq_getElem _ _ h]
  exact List.getElem_mem _

/-- The heart of C2: from any state satisfying the merge invariant over
key-sorted per-child remainder lists, the client loop emits a
permutation of all remaining records with non-decreasing keys. -/
theorem merge_run (fs : List BlobFile) (hWF : ∀ f ∈ fs, WellFormed f) :
    ∀ (fuel : ℕ) (rems : List (List (ℕ × BlobRecord))) (m : BlobFileMergeIterator),
      MergeInv fs m rems →
      (∀ rem ∈ rems, List.Chain' (· ≤ ·) (rem.map (fun x => x.2.key))) →
      (rems.map List.length).sum + 1 ≤ fuel →
      ∃ l, mergeCollect fs fuel m = some l ∧
        l.Perm (rems.map (fun rem => rem.map Prod.snd)).join ∧
        List.Chain' (fun a b => a.key ≤ b.key) l ∧
        (∀ c, m.current_ = some c → ∀ x ∈ l, heapKey m.states c ≤ x.key) := by
  intro fuel
  induction fuel with
  | zero => intro rems m _ _ h; omega
  | succ k ih =>
      intro rems m hinv hsort hfuel
      obtain ⟨hlen, hrlen, hpos, hnodup, hmem, hstat, hcurnone, hmin⟩ := hinv
      rcases hcur : m.current_ with _ | c
      · -- no current child: every remainder list is empty, nothing is emitted
        have hheap : m.min_heap_ = [] := hcurnone hcur
        have hvalid : m.Valid = false := by
          simp [BlobFileMergeIterator.Valid, hcur]
        have hallnil : ∀ i, i < fs.length → rems.getD i [] = [] := by
          intro i hi
          by_contra hne
          have : i ∈ pendingList m := (hmem i).mpr ⟨hi, hne⟩
          rw [pendingList, hheap, hcur] at this
          simp at this
        have hjoin : (rems.map (fun rem => rem.map Prod.snd)).join = [] := by
          apply list_join_nil_of_all
          intro l hl
          obtain ⟨rem, hrem, rfl⟩ := List.mem_map.mp hl
          obtain ⟨i, hi, hie⟩ := List.mem_iff_getElem.mp hrem
          have : rems.getD i [] = rem := by
            rw [List.getD_eq_getElem _ _ hi]; exact hie
          rw [← this, hallnil i (by omega)]
          rfl
        refine ⟨[], ?_, by simp [hjoin], by simp, ?_⟩
        · rw [mergeCollect_succ, if_neg (by simp [hvalid])]
        · intro c hc x hx
          simp at hx
      · -- a current child exists and is positioned on its next record
        have hpend : pendingList m = m.min_heap_ ++ [c] := by
          simp [pendingList, hcur]
        have hcpend : c ∈ pendingList m := by
          rw [hpend]; exact List.mem_append_right _ (List.mem_cons_self _ _)
        obtain ⟨hclt, hcne⟩ := (hmem c).mp hcpend
        have hcltr : c < rems.length := by omega
        have hclts : c < m.states.length := by omega
        obtain ⟨x, remc', hrem_eq⟩ : ∃ x t, rems.getD c [] = x :: t := by
          rcases hx : rems.getD c [] with _ | ⟨x, t⟩
          · exact absurd hx hcne
          · exact ⟨x, t, rfl⟩
        obtain ⟨oc, rc⟩ := x
        have hfmem : fs.getD c dummyBlobFile ∈ fs := getD_mem_of_lt fs c _ hclt
        have hposc := hpos c hclt
        rw [hrem_eq] at hposc
        obtain ⟨hvldc, hoc, hrc, it', hnextc, hposc'⟩ :=
          positioned_step (fs.getD c dummyBlobFile) (hWF _ hfmem)
            (m.states.getD c initIter) oc rc remc' hposc
        obtain ⟨_, _, hvc, hstc⟩ := positioned_cur _ _ _ _ _ hposc
        have hchst : (m.states.getD c initIter).status_ = TStatus.ok :=
          ((valid_iff _).mp hvldc).2
        have hmvalid : m.Valid = true := by
          unfold BlobFileMergeIterator.Valid
          rw [hcur]
          dsimp only
          rw [hstat, hvldc, hchst]
          rfl
        have hemit : m.currentRecord = rc := by
          unfold BlobFileMergeIterator.currentRecord
          rw [hcur]
          exact hrc
        have hkeyc : heapKey m.states c = rc.key := by
          unfold heapKey
          rw [hrc]
        have hcnotheap : c ∉ m.min_heap_ := by
          intro hcin
          have := List.disjoint_of_nodup_append (hpend ▸ hnodup)
          exact this hcin (List.mem_cons_self _ _)
        have hpush_iff : (((it'.status_ == TStatus.ok) && it'.Valid) = true) ↔ remc' ≠ [] := by
          constructor
          · intro hp hnil
            subst hnil
            have := (positioned_valid_iff _ _ _ hposc').mp (by
              simp at hp
              exact hp.2)
            exact this rfl
          · intro hne
            have hv := (positioned_valid_iff _ _ _ hposc').mpr hne
            have hst' := ((valid_iff _).mp hv).2
            simp [hv, hst']
        -- the new per-child bookkeeping
        have hsort_c := hsort (rems.getD c []) (getD_mem_of_lt rems c [] hcltr)
        rw [hrem_eq] at hsort_c
        have hsort' : ∀ rem ∈ rems.set c remc',
            List.Chain' (· ≤ ·) (rem.map (fun x => x.2.key)) := by
          intro rem hrem
          rcases List.mem_or_eq_of_mem_set hrem with hrem | rfl
          · exact hsort rem hrem
          · exact (List.chain'_cons'.mp (by simpa using hsort_c)).2
        have hfuel' : ((rems.set c remc').map List.length).sum + 1 ≤ k := by
          have := list_sum_len_set rems c (oc, rc) remc' hcltr hrem_eq
          omega
        have hremlen' : (rems.set c remc').length = fs.length := by
          rw [List.length_set]; exact hrlen
        have hposall' : ∀ i, i < fs.length →
            Positioned (fs.getD i dummyBlobFile) ((m.states.set c it').getD i initIter)
              ((rems.set c remc').getD i []) := by
          intro i hi
          by_cases hic : i = c
          · subst hic
            rw [list_getD_set_self m.states i it' initIter hclts,
              list_getD_set_self rems i remc' [] hcltr]
            exact hposc'
          · rw [list_getD_set_ne m.states c i it' initIter (fun h => hic h.symm),
              list_getD_set_ne rems c i remc' [] (fun h => hic h.symm)]
            exact hpos i hi
        have hkey_other : ∀ j, j ≠ c → heapKey (m.states.set c it') j = heapKey m.states j := by
          intro j hj
          unfold heapKey
          rw [list_getD_set_ne m.states c j it' initIter (fun h => hj h.symm)]
        have hheap_nodup : (if (it'.status_ == TStatus.ok) && it'.Valid
            then m.min_heap_ ++ [c] else m.min_heap_).Nodup := by
          by_cases hp : ((it'.status_ == TStatus.ok) && it'.Valid) = true
          · rw [if_pos hp]; exact hpend ▸ hnodup
          · rw [if_neg hp]
            exact List.Nodup.of_append_left (hpend ▸ hnodup)
        have hheap_mem : ∀ i, (i ∈ (if (it'.status_ == TStatus.ok) && it'.Valid
            then m.min_heap_ ++ [c] else m.min_heap_)) ↔
            (i < fs.length ∧ (rems.set c remc').getD i [] ≠ []) := by
          intro i
          by_cases hic : i = c
          · subst hic
            rw [list_getD_set_self rems i remc' [] hcltr]
            by_cases hp : ((it'.status_ == TStatus.ok) && it'.Valid) = true
            · rw [if_pos hp]
              constructor
              · intro _; exact ⟨hclt, hpush_iff.mp hp⟩
              · intro _; exact List.mem_append_right _ (List.mem_cons_self _ _)
            · rw [if_neg hp]
              constructor
              · intro hin; exact absurd hin hcnotheap
              · intro ⟨_, hne⟩
                exact absurd (hpush_iff.mpr hne) hp
          · have hiff : i ∈ m.min_heap_ ↔ (i < fs.length ∧ rems.getD i [] ≠ []) := by
              rw [← hmem i, hpend]
              constructor
              · intro h; exact List.mem_append_left _ h
              · intro h
                rcases List.mem_append.mp h with h | h
                · exact h
                · exact absurd (List.mem_singleton.mp h) hic
            rw [list_getD_set_ne rems c i remc' [] (fun h => hic h.symm)]
            by_cases hp : ((it'.status_ == TStatus.ok) && it'.Valid) = true
            · rw [if_pos hp]
              constructor
              · intro h
                rcases List.mem_append.mp h with h | h
                · exact hiff.mp h
                · exact absurd (List.mem_singleton.mp h) hic
              · intro h; exact List.mem_append_left _ (hiff.mpr h)
            · rw [if_neg hp]; exact hiff
        rcases hpm : popMin (m.states.set c it')
            (if (it'.status_ == TStatus.ok) && it'.Valid then m.min_heap_ ++ [c]
             else m.min_heap_) with _ | ⟨c', h'⟩
        · -- the heap emptied: nothing is pending, the run stops after this record
          have hhe : (if (it'.status_ == TStatus.ok) && it'.Valid
              then m.min_heap_ ++ [c] else m.min_heap_) = [] := popMin_eq_none _ _ hpm
          have hrem'nil : ∀ i, i < fs.length → (rems.set c remc').getD i [] = [] := by
            intro i hi
            by_contra hne
            have := (hheap_mem i).mpr ⟨hi, hne⟩
            rw [hhe] at this
            simp at this
          have hremc'nil : remc' = [] := by
            have := hrem'nil c hclt
            rwa [list_getD_set_self rems c remc' [] hcltr] at this
          have hothers : ∀ i, i < fs.length → i ≠ c → rems.getD i [] = [] := by
            intro i hi hic
            have := hrem'nil i hi
            rwa [list_getD_set_ne rems c i remc' [] (fun h => hic h.symm)] at this
          -- join rems is the single emitted record
          have hjoin : (rems.map (fun rem => rem.map Prod.snd)).join.Perm [rc] := by
            have hperm := list_join_set_cons (rems.map (fun rem => rem.map Prod.snd)) c rc
              (remc'.map Prod.snd)
              (by rw [List.length_map]; exact hcltr)
              (by
                have : (rems.map (fun rem => rem.map Prod.snd)).getD c ([].map Prod.snd) =
                    (rems.getD c []).map Prod.snd := List.getD_map rems [] _
                rw [show ([] : List (ℕ × BlobRecord)).map Prod.snd = [] from rfl] at this
                rw [this, hrem_eq]
                rfl)
            have hsetnil : ((rems.map (fun rem => rem.map Prod.snd)).set c
                (remc'.map Prod.snd)).join = [] := by
              apply list_join_nil_of_all_idx
              intro i hi
              have hilen : i < rems.length := by
                rw [List.length_set, List.length_map] at hi
                exact hi
              by_cases hic : i = c
              · subst hic
                rw [list_getD_set_self _ _ _ _ (by rw [List.length_map]; exact hcltr)]
                rw [hremc'nil]
                rfl
              · rw [list_getD_set_ne _ c i _ [] (fun h => hic h.symm)]
                have hgd : (rems.map (fun rem => rem.map Prod.snd)).getD i
                    (([] : List (ℕ × BlobRecord)).map Prod.snd) =
                    (rems.getD i []).map Prod.snd := List.getD_map rems [] _
                rw [show ([] : List (ℕ × BlobRecord)).map Prod.snd = [] from rfl] at hgd
                rw [hgd, hothers i (by omega) hic]
                rfl
            rw [hsetnil] at hperm
            exact hperm
          obtain ⟨k', rfl⟩ : ∃ k', k = k' + 1 := ⟨k - 1, by omega⟩
          have hnexteq := mergeNext_eq fs m c hcur it' hnextc
          rw [hpm] at hnexteq
          refine ⟨[rc], ?_, hjoin.symm, by simp, ?_⟩
          · rw [mergeCollect_succ, if_pos hmvalid, hnexteq]
            dsimp only
            rw [mergeCollect_succ, if_neg (by simp [BlobFileMergeIterator.Valid])]
            rw [hemit]
          · intro c₀ hc₀
            obtain rfl : c = c₀ := by simpa using hc₀
            intro x hx
            obtain rfl : x = rc := by simpa using hx
            rw [hkeyc]
        · -- a new current child was popped
          obtain ⟨hc'mem, hc'perm, hc'min⟩ := popMin_spec _ _ _ _ hpm
          have hnexteq := mergeNext_eq fs m c hcur it' hnextc
          rw [hpm] at hnexteq
          -- the new state satisfies the invariant
          have hnodup' : (pendingList { m with
              states := m.states.set c it'
              min_heap_ := h'
              current_ := some c' }).Nodup := by
            show (h' ++ [c']).Nodup
            have h1 : (c' :: h').Nodup := hc'perm.nodup hheap_nodup
            exact (List.perm_append_singleton c' h').symm.nodup h1
          have hmem' : ∀ i, i ∈ pendingList { m with
              states := m.states.set c it'
              min_heap_ := h'
              current_ := some c' } ↔
              (i < fs.length ∧ (rems.set c remc').getD i [] ≠ []) := by
            intro i
            show i ∈ h' ++ [c'] ↔ _
            rw [← hheap_mem i]
            constructor
            · intro h
              exact hc'perm.mem_iff.mpr ((List.perm_append_singleton c' h').mem_iff.mp h)
            · intro h
              exact (List.perm_append_singleton c' h').mem_iff.mpr (hc'perm.mem_iff.mp h)
          have hinv' : MergeInv fs { m with
              states := m.states.set c it'
              min_heap_ := h'
              current_ := some c' } (rems.set c remc') := by
            refine ⟨by rw [List.length_set]; exact hlen, hremlen', hposall', hnodup',
              hmem', hstat, ?_, ?_⟩
            · intro h; simp at h
            · intro c₀ hc₀ j hj
              obtain rfl : c' = c₀ := by simpa using hc₀
              refine hc'min j ?_
              exact hc'perm.mem_iff.mpr (List.mem_cons_of_mem _ hj)
          obtain ⟨l', hcoll', hperm', hchain', hlb'⟩ :=
            ih (rems.set c remc')
              { m with
                states := m.states.set c it'
                min_heap_ := h'
                current_ := some c' }
              hinv' hsort' hfuel'
          -- key comparison between the emitted record and the new current child
          have hkey_step : rc.key ≤ heapKey (m.states.set c it') c' := by
            have hc'heap : c' ∈ (if (it'.status_ == TStatus.ok) && it'.Valid
                then m.min_heap_ ++ [c] else m.min_heap_) := hc'mem
            by_cases hic : c' = c
            · subst hic
              have hp : ((it'.status_ == TStatus.ok) && it'.Valid) = true := by
                by_contra hp
                rw [if_neg hp] at hc'heap
                exact hcnotheap hc'heap
              have hne := hpush_iff.mp hp
              obtain ⟨y, remc'', hy⟩ : ∃ y t, remc' = y :: t := by
                rcases hz : remc' with _ | ⟨y, t⟩
                · exact absurd hz hne
                · exact ⟨y, t, rfl⟩
              subst hy
              obtain ⟨y1, y2⟩ := y
              obtain ⟨_, hcur'', _, _⟩ := positioned_cur _ _ _ _ _ hposc'
              have : heapKey (m.states.set c' it') c' = y2.key := by
                unfold heapKey
                rw [list_getD_set_self m.states c' it' initIter hclts, hcur'']
              rw [this]
              have hch := hsort_c
              rw [List.map_cons, List.chain'_cons'] at hch
              exact hch.1 y2.key (by simp)
            · rw [hkey_other c' hic]
              have hc'old : c' ∈ m.min_heap_ := by
                by_cases hp : ((it'.status_ == TStatus.ok) && it'.Valid) = true
                · rw [if_pos hp] at hc'heap
                  rcases List.mem_append.mp hc'heap with h | h
                  · exact h
                  · exact absurd (by simpa using h) hic
                · rw [if_neg hp] at hc'heap
                  exact hc'heap
              rw [← hkeyc]
              exact hmin c hcur c' hc'old
          refine ⟨rc :: l', ?_, ?_, ?_, ?_⟩
          · rw [mergeCollect_succ, if_pos hmvalid, hnexteq]
            dsimp only
            rw [hcoll']
            dsimp only
            rw [hemit]
          · -- permutation with the full remaining multiset
            have hperm := list_join_set_cons (rems.map (fun rem => rem.map Prod.snd)) c rc
              (remc'.map Prod.snd)
              (by rw [List.length_map]; exact hcltr)
              (by
                have hgd : (rems.map (fun rem => rem.map Prod.snd)).getD c
                    (([] : List (ℕ × BlobRecord)).map Prod.snd) =
                    (rems.getD c []).map Prod.snd := List.getD_map rems [] _
                rw [show ([] : List (ℕ × BlobRecord)).map Prod.snd = [] from rfl] at hgd
                rw [hgd, hrem_eq]
                rfl)
            have hmapset : (rems.set c remc').map (fun rem => rem.map Prod.snd) =
                (rems.map (fun rem => rem.map Prod.snd)).set c (remc'.map Prod.snd) :=
              list_map_set _ rems c remc'
            rw [← hmapset] at hperm
            exact ((hperm'.cons rc).trans hperm.symm)
          · -- keys are non-decreasing
            rw [List.chain'_cons']
            refine ⟨?_, hchain'⟩
            intro b hb
            have hbmem : b ∈ l' := List.mem_of_mem_head? hb
            have := hlb' c' rfl b hbmem
            exact Nat.le_trans hkey_step this
          · -- lower bound for the caller
            intro c₀ hc₀ x hx
            obtain rfl : c = c₀ := by simpa using hc₀
            rw [hkeyc]
            rcases List.mem_cons.mp hx with rfl | hx
            · exact Nat.le_refl _
            · exact Nat.le_trans hkey_step (hlb' c' rfl x hx)

theorem list_getD_map {α β : Type _} (g : α → β) (l : List α) (i : ℕ) (d : β) (d₂ : α)
    (h : i < l.length) : (l.map g).getD i d = g (l.getD i d₂) := by
  rw [List.getD_eq_getElem _ _ (by simpa using h), List.getElem_map,
      List.getD_eq_getElem _ _ h]

/-- `BlobFileMergeIterator::SeekToFirst` either establishes the merge
invariant over the children's full live-record lists, or — when no child
is valid — records the aborted status with every child exhausted. -/
theorem merge_seekToFirst_spec (fs : List BlobFile) (hWF : ∀ f ∈ fs, WellFormed f) :
    ∃ m, BlobFileMergeIterator.SeekToFirst fs = some m ∧
      (MergeInv fs m (fs.map (fun f => liveList f (recStart f) f.slots)) ∨
       (m.Valid = false ∧ ∀ f ∈ fs, liveList f (recStart f) f.slots = [])) := by
  obtain ⟨states, hseek, hlen, hpos⟩ := seekAll_spec fs hWF
  have hremD : ∀ i, i < fs.length →
      (fs.map (fun f => liveList f (recStart f) f.slots)).getD i [] =
        liveList (fs.getD i dummyBlobFile) (recStart (fs.getD i dummyBlobFile))
          (fs.getD i dummyBlobFile).slots := by
    intro i hi
    exact list_getD_map _ fs i [] dummyBlobFile hi
  rcases hpop : popMin states ((List.range states.length).filter
      (fun i => ((states.getD i initIter).status_ == TStatus.ok) &&
        (states.getD i initIter).Valid)) with _ | cp
  · -- no valid child: Aborted
    have hstf : BlobFileMergeIterator.SeekToFirst fs =
        some ⟨states, [], none, TStatus.aborted⟩ := by
      unfold BlobFileMergeIterator.SeekToFirst
      rw [hseek]
      simp only [Option.bind_eq_bind, Option.some_bind]
      rw [hpop]
      rfl
    have hheapnil := popMin_eq_none states _ hpop
    refine ⟨_, hstf, Or.inr ⟨rfl, ?_⟩⟩
    intro f hf
    obtain ⟨i, hi, hfe⟩ := List.mem_iff_getElem.mp hf
    by_contra hne
    have hfd : fs.getD i dummyBlobFile = f := by
      rw [List.getD_eq_getElem _ _ hi, hfe]
    have hvalid : (states.getD i initIter).Valid = true := by
      apply (positioned_valid_iff _ _ _ (hpos i hi)).mpr
      rw [hfd]
      exact hne
    have hst : (states.getD i initIter).status_ = TStatus.ok := (hpos i hi).2.1
    have himem : i ∈ (List.range states.length).filter
        (fun i => ((states.getD i initIter).status_ == TStatus.ok) &&
          (states.getD i initIter).Valid) := by
      rw [List.mem_filter, List.mem_range, hlen]
      exact ⟨hi, by simp only [Bool.and_eq_true, beq_iff_eq]; exact ⟨hst, hvalid⟩⟩
    rw [hheapnil] at himem
    simp at himem
  · -- some child is valid: the minimum becomes current
    obtain ⟨c, h'⟩ := cp
    have hstf : BlobFileMergeIterator.SeekToFirst fs =
        some ⟨states, h', some c, TStatus.ok⟩ := by
      unfold BlobFileMergeIterator.SeekToFirst
      rw [hseek]
      simp only [Option.bind_eq_bind, Option.some_bind]
      rw [hpop]
      rfl
    obtain ⟨hcmem, hperm, hmin⟩ := popMin_spec states _ c h' hpop
    have hheapmem : ∀ j, (j ∈ (List.range states.length).filter
        (fun i => ((states.getD i initIter).status_ == TStatus.ok) &&
          (states.getD i initIter).Valid)) ↔
        (j < fs.length ∧
          (fs.map (fun f => liveList f (recStart f) f.slots)).getD j [] ≠ []) := by
      intro j
      rw [List.mem_filter, List.mem_range, hlen]
      constructor
      · rintro ⟨hj, hcond⟩
        refine ⟨hj, ?_⟩
        rw [hremD j hj]
        refine (positioned_valid_iff _ _ _ (hpos j hj)).mp ?_
        simp only [Bool.and_eq_true, beq_iff_eq] at hcond
        exact hcond.2
      · rintro ⟨hj, hne⟩
        rw [hremD j hj] at hne
        have hv := (positioned_valid_iff _ _ _ (hpos j hj)).mpr hne
        have hst : (states.getD j initIter).status_ = TStatus.ok := (hpos j hj).2.1
        exact ⟨hj, by simp only [Bool.and_eq_true, beq_iff_eq]; exact ⟨hst, hv⟩⟩
    have hnodupheap : ((List.range states.length).filter
        (fun i => ((states.getD i initIter).status_ == TStatus.ok) &&
          (states.getD i initIter).Valid)).Nodup :=
      (List.nodup_range _).filter _
    refine ⟨_, hstf, Or.inl ⟨hlen, by simp, ?_, ?_, ?_, rfl, ?_, ?_⟩⟩
    · intro i hi
      rw [hremD i hi]
      exact hpos i hi
    · show (h' ++ [c]).Nodup
      exact (List.perm_append_singleton c h').symm.nodup (hperm.nodup hnodupheap)
    · intro i
      show (i ∈ h' ++ [c]) ↔ _
      exact ((List.perm_append_singleton c h').mem_iff.trans hperm.mem_iff.symm).trans
        (hheapmem i)
    · intro h
      simp at h
    · intro c₀ hc₀ j hj
      obtain rfl : c = c₀ := by simpa using hc₀
      exact hmin j (hperm.mem_iff.mpr (List.mem_cons_of_mem _ hj))

/-- C2 (corrected): for children whose live-record key sequences are
non-decreasing, the merge scanner (`SeekToFirst` followed by repeated
`Next`) emits exactly the multiset union of the children's records —
nothing dropped, nothing added — with non-decreasing keys.  The
key-sortedness hypothesis is necessary: blob files are not key-sorted by
construction, and over an unsorted child the ordering clause fails (see
the counterexample). -/
theorem spec_C2 (fs : List BlobFile) (hWF : ∀ f ∈ fs, WellFormed f)
    (hsorted : ∀ f ∈ fs,
      List.Chain' (· ≤ ·) ((liveList f (recStart f) f.slots).map (fun x => x.2.key))) :
    ∃ l, mergeTrace fs = some l ∧
      l.Perm ((fs.map (fun f => (liveList f (recStart f) f.slots).map Prod.snd)).join) ∧
      List.Chain' (fun a b => a.key ≤ b.key) l := by
  obtain ⟨m, hstf, hres⟩ := merge_seekToFirst_spec fs hWF
  have hmt : mergeTrace fs =
      mergeCollect fs
        ((fs.map (fun f => (liveList f (recStart f) f.slots).length)).sum + 1) m := by
    unfold mergeTrace
    rw [hstf]
    rfl
  rcases hres with hinv | ⟨hval, hnil⟩
  · obtain ⟨l, hcol, hperm, hchain, _⟩ :=
      merge_run fs hWF _ (fs.map (fun f => liveList f (recStart f) f.slots)) m hinv
        (by
          intro rem hrem
          obtain ⟨f, hf, rfl⟩ := List.mem_map.mp hrem
          exact hsorted f hf)
        (by
          rw [List.map_map])
    refine ⟨l, ?_, ?_, hchain⟩
    · rw [hmt]
      exact hcol
    · refine hperm.trans ?_
      rw [List.map_map]
      exact List.Perm.refl _
  · refine ⟨[], ?_, ?_, List.chain'_nil⟩
    · rw [hmt, mergeCollect_succ, if_neg (by simp [hval])]
    · have hjoin : (fs.map
          (fun f => (liveList f (recStart f) f.slots).map Prod.snd)).join = [] := by
        apply list_join_nil_of_all
        intro l hl
        obtain ⟨f, hf, rfl⟩ := List.mem_map.mp hl
        rw [hnil f hf]
        rfl
      exact hjoin ▸ List.Perm.refl []

theorem spec_C2_witness :
    ∃ l, mergeTrace [exG1, exG2, exG3] = some l ∧
      l.Perm (([exG1, exG2, exG3].map
        (fun f => (liveList f (recStart f) f.slots).map Prod.snd)).join) ∧
      List.Chain' (fun a b => a.key ≤ b.key) l :=
  spec_C2 [exG1, exG2, exG3] (by decide)
    (by
      intro f hf
      rcases List.mem_cons.mp hf with rfl | hf
      · show List.Chain' (· ≤ ·) [1, 5]
        simp [List.chain'_cons]
      rcases List.mem_cons.mp hf with rfl | hf
      · show List.Chain' (· ≤ ·) [3, 8]
        simp [List.chain'_cons]
      rcases List.mem_cons.mp hf with rfl | hf
      · show List.Chain' (· ≤ ·) [2, 9]
        simp [List.chain'_cons]
      · exact absurd hf (List.not_mem_nil f))

/-- Counterexample to the frozen C2: the merge scanner over the single
file `exFDesc`, whose records carry keys 5 then 1 in file order, emits
the keys in file order — the output key sequence is not non-decreasing,
so the unconditional ordering guarantee of the claim is false. -/
theorem spec_C2_cex :
    mergeTrace [exFDesc] = some [⟨5, 50⟩, ⟨1, 10⟩] ∧
    ¬ List.Chain' (fun a b => a.key ≤ b.key) [(⟨5, 50⟩ : BlobRecord), ⟨1, 10⟩] :=
  ⟨by decide, by simp [List.chain'_cons]⟩

/-- `IterateForPrev` on a target at or beyond the end-of-record-region
boundary: the cursor is parked at the target and the status becomes
`InvalidArgument`. -/
theorem ifp_oob (f : BlobFile) (it : BlobFileIterator) (hinit : it.init_ = true)
    (t : ℕ) (hge : it.end_of_blob_record_ ≤ t) :
    BlobFileIterator.IterateForPrev f t it =
      some { it with status_ := TStatus.invalidArgument, iterate_offset_ := t } := by
  unfold BlobFileIterator.IterateForPrev
  simp [hinit, hge]

/-- C1 (confirmed): over any well-formed blob file, `SeekToFirst` followed
by repeated `Next` emits exactly the file's non-hole-punched records, each
once, in strictly ascending start-offset order, and the final (invalid)
state's cursor sits at the end-of-record-region boundary computed by
`Init`. -/
theorem spec_C1 (f : BlobFile) (hWF : WellFormed f) :
    ∃ itf, scanTrace f = some (liveList f (recStart f) f.slots, itf) ∧
      itf.iterate_offset_ = endOfBlobRecord f ∧ itf.Valid = false ∧
      List.Chain' (· < ·) ((liveList f (recStart f) f.slots).map Prod.fst) :=
  scanTrace_spec f hWF

theorem spec_C1_witness :
    ∃ itf, scanTrace exF1 = some (liveList exF1 (recStart exF1) exF1.slots, itf) ∧
      itf.iterate_offset_ = endOfBlobRecord exF1 ∧ itf.Valid = false ∧
      List.Chain' (· < ·) ((liveList exF1 (recStart exF1) exF1.slots).map Prod.fst) :=
  spec_C1 exF1 (by decide)

/-- C3 (corrected): over a hole-free well-formed blob file,
`IterateForPrev t` for an in-region target `t` parks the (invalid) cursor
on the record with the greatest start offset `≤ t` and the following
`Next` yields exactly that record; a target at or beyond the boundary
yields `InvalidArgument`; `Valid` is false right after either call.  The
hole-free restriction is necessary: when the backward walk lands on a
hole-punched block the following `Next` skips forward past it and can
yield a record whose start exceeds `t` (see the counterexample). -/
theorem spec_C3 (f : BlobFile) (hWF : WellFormed f) (hnf : Slot.hole ∉ f.slots)
    (it : BlobFileIterator) (hcons : Consistent f it) (t : ℕ) :
    (recStart f ≤ t → t < endOfBlobRecord f →
      ∃ b r sz, slotAt f b = some (Slot.live r sz) ∧ b ≤ t ∧
        (∀ q sl', slotAt f q = some sl' → q ≤ t → q ≤ b) ∧
        ∃ it₁, BlobFileIterator.IterateForPrev f t it = some it₁ ∧
          it₁.Valid = false ∧ it₁.iterate_offset_ = b ∧
          ∃ it₂, BlobFileIterator.Next f it₁ = some it₂ ∧ it₂.Valid = true ∧
            it₂.cur_record_offset_ = b ∧ it₂.cur_blob_record_ = r) ∧
    (endOfBlobRecord f ≤ t →
      ∃ it₁, BlobFileIterator.IterateForPrev f t it = some it₁ ∧
        it₁.status_ = TStatus.invalidArgument ∧ it₁.Valid = false ∧
        it₁.iterate_offset_ = t) := by
  constructor
  · intro hge hlt
    obtain ⟨b, r, sz, h1, h2, h3, it₁, h4, hV, _, _, hoff, rest⟩ :=
      iterateForPrev_spec f hWF hnf it hcons t hge hlt
    exact ⟨b, r, sz, h1, h2, h3, it₁, h4, hV, hoff, rest⟩
  · intro hge
    refine ⟨_, ifp_oob f it hcons.1 t (by rw [hcons.2.2.1]; exact hge), rfl, ?_, rfl⟩
    simp [BlobFileIterator.Valid]

theorem spec_C3_witness :
    (∃ b r sz, slotAt exF2 b = some (Slot.live r sz) ∧ b ≤ 20 ∧
      (∀ q sl', slotAt exF2 q = some sl' → q ≤ 20 → q ≤ b) ∧
      ∃ it₁, BlobFileIterator.IterateForPrev exF2 20 exIt2 = some it₁ ∧
        it₁.Valid = false ∧ it₁.iterate_offset_ = b ∧
        ∃ it₂, BlobFileIterator.Next exF2 it₁ = some it₂ ∧ it₂.Valid = true ∧
          it₂.cur_record_offset_ = b ∧ it₂.cur_blob_record_ = r) ∧
    (∃ it₁, BlobFileIterator.IterateForPrev exF2 60 exIt2 = some it₁ ∧
      it₁.status_ = TStatus.invalidArgument ∧ it₁.Valid = false ∧
      it₁.iterate_offset_ = 60) :=
  ⟨(spec_C3 exF2 (by decide) (by decide) exIt2 (by decide) 20).1 (by decide) (by decide),
   (spec_C3 exF2 (by decide) (by decide) exIt2 (by decide) 60).2 (by decide)⟩

/-- Counterexample to the frozen C3: over `exF1` (live record at 16,
hole-punched block at 32, live record at 48, boundary 64) the target 40
lies inside the hole-punched block; `IterateForPrev 40` followed by `Next`
yields the record starting at 48 > 40, although a record starts at
16 ≤ 40 — not the record with the greatest start offset ≤ 40. -/
theorem spec_C3_cex :
    WellFormed exF1 ∧ Consistent exF1 exItHole ∧
    slotAt exF1 16 = some (Slot.live ⟨1, 11⟩ 3) ∧ 40 < endOfBlobRecord exF1 ∧
    ((BlobFileIterator.IterateForPrev exF1 40 exItHole).bind
        (BlobFileIterator.Next exF1)).map BlobFileIterator.cur_record_offset_ =
      some 48 :=
  ⟨by decide, by decide, by decide, by decide, by decide⟩

/-- C4 (corrected): a non-ok status does force `Valid` to return false
while it persists, but the status is not sticky: `SeekToFirst`
unconditionally resets `status_` to OK on entry (line 84; `IterateForPrev`
likewise, line 106), after which `Valid` can return true again — over a
well-formed file it returns true exactly when a live record exists. -/
theorem spec_C4 (f : BlobFile) (hWF : WellFormed f) (it : BlobFileIterator)
    (hcons : Consistent f it) (hst : it.status_ ≠ TStatus.ok) :
    it.Valid = false ∧
    ∃ it', BlobFileIterator.SeekToFirst f it = some it' ∧
      it'.status_ = TStatus.ok ∧
      (it'.Valid = true ↔ liveList f (recStart f) f.slots ≠ []) := by
  refine ⟨valid_false_of_status it hst, ?_⟩
  obtain ⟨it', hseek, hpo⟩ := seekToFirst_spec f hWF it (Or.inr hcons)
  exact ⟨it', hseek, hpo.2.1, positioned_valid_iff f it' _ hpo⟩

theorem spec_C4_witness :
    ({ exItHole with status_ := TStatus.ioError } : BlobFileIterator).Valid = false ∧
    ∃ it', BlobFileIterator.SeekToFirst exF1
        { exItHole with status_ := TStatus.ioError } = some it' ∧
      it'.status_ = TStatus.ok ∧
      (it'.Valid = true ↔ liveList exF1 (recStart exF1) exF1.slots ≠ []) :=
  spec_C4 exF1 (by decide) { exItHole with status_ := TStatus.ioError }
    (by decide) (by decide)

/-- Counterexample to the frozen C4: starting from a scanner whose status
is a non-ok I/O error, one `SeekToFirst` call leaves the status OK and
`Valid` returning true — the non-ok status was cleared and a subsequent
`Valid` call returned true, refuting stickiness. -/
theorem spec_C4_cex :
    (BlobFileIterator.SeekToFirst exF1 { exItHole with status_ := TStatus.ioError }).map
        (fun it => (it.status_, it.Valid)) = some (TStatus.ok, true) := by
  decide

/-- C5 (corrected): `Init` fails — returns false with an I/O-error or
corruption status — when the header read, the header decode, the footer
read or the dictionary fetch fails, and after such a failure the scanner
is permanently unusable: no operation sequence ever makes `Valid` true.
A footer decode failure, however, is not among the checked steps: `Init`
leaves the corruption status behind but keeps going and returns true (see
the counterexample). -/
theorem spec_C5 (f : BlobFile) (h0 : 0 < f.header_size)
    (hfail : f.headerReadOk = false ∨ f.headerDecodeOk = false ∨
      f.footerReadOk = false ∨ (f.hasDict = true ∧ f.dictFetchOk = false)) :
    (BlobFileIterator.Init f initIter).2 = false ∧
    ((BlobFileIterator.Init f initIter).1.status_ = TStatus.ioError ∨
      (BlobFileIterator.Init f initIter).1.status_ = TStatus.corruption) ∧
    ∀ (ops : List IterOp) (it' : BlobFileIterator),
      runIterOps f ops initIter = some it' → it'.Valid = false := by
  have hfs := init_fail_spec f hfail initIter
  refine ⟨hfs.1, hfs.2.1, ?_⟩
  intro ops it' hrun
  obtain ⟨_, hv, _⟩ := runIterOps_unusable f h0 hfail ops initIter rfl rfl rfl it' hrun
  simp [BlobFileIterator.Valid, hv]

theorem spec_C5_witness :
    (BlobFileIterator.Init exF3 initIter).2 = false ∧
    ((BlobFileIterator.Init exF3 initIter).1.status_ = TStatus.ioError ∨
      (BlobFileIterator.Init exF3 initIter).1.status_ = TStatus.corruption) ∧
    (BlobFileIterator.Init exF3 initIter).1.Valid = false := by
  obtain ⟨ha, hb, hc⟩ := spec_C5 exF3 (by decide) (Or.inl (by decide))
  exact ⟨ha, hb, hc [IterOp.seekToFirst] (BlobFileIterator.Init exF3 initIter).1 (by decide)⟩

/-- Counterexample to the frozen C5: over `exF5`, whose footer decode
fails, `Init` nevertheless returns true and marks the scanner
initialized — only the leftover corruption status betrays the failed
decode step, so initialization does not fail on every failing decode
step. -/
theorem spec_C5_cex :
    exF5.footerDecodeOk = false ∧
    (BlobFileIterator.Init exF5 initIter).2 = true ∧
    (BlobFileIterator.Init exF5 initIter).1.init_ = true ∧
    (BlobFileIterator.Init exF5 initIter).1.status_ = TStatus.corruption :=
  ⟨by decide, by decide, by decide, by decide⟩

/-- C6 (confirmed): when the record header at the cursor carries a zero
payload-length field, `GetBlobRecord` returns false with an OK status and
every other member unchanged — no record is produced, no error is set —
and the scan loop continues with the next iteration after advancing the
cursor by exactly `block_size_`. -/
theorem spec_C6 (f : BlobFile) (fuel : ℕ) (it : BlobFileIterator) (sl : Slot)
    (h : slotAt f it.iterate_offset_ = some sl) (hsz : sizeField sl = 0)
    (hlt : it.iterate_offset_ < it.end_of_blob_record_) :
    BlobFileIterator.GetBlobRecord f it = ({ it with status_ := TStatus.ok }, false) ∧
    ∃ it2, BlobFileIterator.PrefetchAndGetGo f (fuel + 1) it =
        BlobFileIterator.PrefetchAndGetGo f fuel it2 ∧
      it2.iterate_offset_ = it.iterate_offset_ + it.block_size_ ∧
      it2.status_ = TStatus.ok ∧ it2.valid_ = it.valid_ ∧
      it2.cur_blob_record_ = it.cur_blob_record_ ∧
      it2.cur_record_offset_ = it.cur_record_offset_ := by
  refine ⟨getBlobRecord_at_punch f it sl h hsz, ?_⟩
  obtain ⟨it2, heq, ho, hst, hv, _, _, _, _, hcbr, hcro, _⟩ :=
    go_step_punch f fuel it sl h hsz hlt
  exact ⟨it2, heq, ho, hst, hv, hcbr, hcro⟩

theorem spec_C6_witness :
    BlobFileIterator.GetBlobRecord exF1 exItHole =
      ({ exItHole with status_ := TStatus.ok }, false) ∧
    ∃ it2, BlobFileIterator.PrefetchAndGetGo exF1 4 exItHole =
        BlobFileIterator.PrefetchAndGetGo exF1 3 it2 ∧
      it2.iterate_offset_ = exItHole.iterate_offset_ + exItHole.block_size_ ∧
      it2.status_ = TStatus.ok ∧ it2.valid_ = exItHole.valid_ ∧
      it2.cur_blob_record_ = exItHole.cur_blob_record_ ∧
      it2.cur_record_offset_ = exItHole.cur_record_offset_ := by
  have h := spec_C6 exF1 3 exItHole Slot.hole (by decide) (by decide) (by decide)
  exact ⟨h.1, h.2⟩

/-- One step of pass 1: the break on the first at-threshold score. -/
theorem pass1_cons_break {opts : TitanCFOptions} {bs : BlobStorage} {sc : GCScore}
    {rest : List GCScore} {acc : List BlobFileMeta} {b : ℕ} {s m : Bool}
    (hbr : opts.blob_file_discardable_ratio ≤ sc.score) :
    pass1 opts bs (sc :: rest) acc b s m = some (acc, b, s, m) := by
  unfold pass1
  rw [if_pos hbr]

/-- One step of pass 1: a candidate whose metadata lookup fails feeds the
null pointer into the skip-logging statement. -/
theorem pass1_cons_none {opts : TitanCFOptions} {bs : BlobStorage} {sc : GCScore}
    {rest : List GCScore} {acc : List BlobFileMeta} {b : ℕ} {s m : Bool}
    (hbr : ¬ opts.blob_file_discardable_ratio ≤ sc.score)
    (hfind : FindFile bs sc.file_number = none) :
    pass1 opts bs (sc :: rest) acc b s m = none := by
  unfold pass1
  rw [if_neg hbr]
  simp [hfind, CheckBlobFile]

/-- One step of pass 1: a resolved candidate in the wrong state is
skipped. -/
theorem pass1_cons_skip {opts : TitanCFOptions} {bs : BlobStorage} {sc : GCScore}
    {rest : List GCScore} {acc : List BlobFileMeta} {b : ℕ} {s m : Bool}
    {meta : BlobFileMeta}
    (hbr : ¬ opts.blob_file_discardable_ratio ≤ sc.score)
    (hfind : FindFile bs sc.file_number = some meta)
    (hc : CheckBlobFile (some meta) = false) :
    pass1 opts bs (sc :: rest) acc b s m = pass1 opts bs rest acc b s m := by
  conv_lhs => rw [pass1]
  rw [if_neg hbr]
  simp [hfind, hc]

/-- One step of pass 1: an eligible candidate is picked while
`stop_picking` is unset. -/
theorem pass1_cons_pick {opts : TitanCFOptions} {bs : BlobStorage} {sc : GCScore}
    {rest : List GCScore} {acc : List BlobFileMeta} {b : ℕ} {m : Bool}
    {meta : BlobFileMeta}
    (hbr : ¬ opts.blob_file_discardable_ratio ≤ sc.score)
    (hfind : FindFile bs sc.file_number = some meta)
    (hc : CheckBlobFile (some meta) = true) :
    pass1 opts bs (sc :: rest) acc b false m =
      pass1 opts bs rest (acc ++ [meta]) (b + meta.file_size)
        (decide (opts.max_gc_batch_size ≤ b + meta.file_size)) m := by
  conv_lhs => rw [pass1]
  rw [if_neg hbr]
  simp [hfind, hc]

/-- One step of pass 1: an eligible candidate found after `stop_picking`
is set ends the loop with the continue-flag raised. -/
theorem pass1_cons_stop {opts : TitanCFOptions} {bs : BlobStorage} {sc : GCScore}
    {rest : List GCScore} {acc : List BlobFileMeta} {b : ℕ} {m : Bool}
    {meta : BlobFileMeta}
    (hbr : ¬ opts.blob_file_discardable_ratio ≤ sc.score)
    (hfind : FindFile bs sc.file_number = some meta)
    (hc : CheckBlobFile (some meta) = true) :
    pass1 opts bs (sc :: rest) acc b true m = some (acc, b, true, true) := by
  unfold pass1
  rw [if_neg hbr]
  simp [hfind, hc]

/-- Pass 1 never looks past the first candidate whose score reaches the
discardable-ratio threshold: the loop over the full list computes the same
result as the loop over the `takeWhile` prefix of below-threshold
candidates. -/
theorem pass1_takeWhile (opts : TitanCFOptions) (bs : BlobStorage) :
    ∀ (l : List GCScore) (acc : List BlobFileMeta) (b : ℕ) (s m : Bool),
      pass1 opts bs l acc b s m =
        pass1 opts bs (l.takeWhile
          (fun sc => decide (sc.score < opts.blob_file_discardable_ratio))) acc b s m := by
  intro l
  induction l with
  | nil => intro acc b s m; rfl
  | cons sc rest ih =>
      intro acc b s m
      by_cases hbr : opts.blob_file_discardable_ratio ≤ sc.score
      · rw [List.takeWhile_cons_of_neg (by simpa using not_lt.mpr hbr),
            pass1_cons_break hbr]
        rfl
      · rw [List.takeWhile_cons_of_pos (by simpa using not_le.mp hbr)]
        rcases hfind : FindFile bs sc.file_number with _ | meta
        · rw [pass1_cons_none hbr hfind, pass1_cons_none hbr hfind]
        · cases hc : CheckBlobFile (some meta) with
          | false =>
              rw [pass1_cons_skip hbr hfind hc, pass1_cons_skip hbr hfind hc]
              exact ih _ _ _ _
          | true =>
              cases s with
              | false =>
                  rw [pass1_cons_pick hbr hfind hc, pass1_cons_pick hbr hfind hc]
                  exact ih _ _ _ _
              | true =>
                  rw [pass1_cons_stop hbr hfind hc, pass1_cons_stop hbr hfind hc]

/-- Pass 1 never consults the `gc_score` list: its result over a storage
with any replacement `gc_score` is unchanged. -/
theorem pass1_gc_irrel (opts : TitanCFOptions) (bs : BlobStorage) (g : List GCScore) :
    ∀ (l : List GCScore) (acc : List BlobFileMeta) (b : ℕ) (s m : Bool),
      pass1 opts { bs with gc_score := g } l acc b s m = pass1 opts bs l acc b s m := by
  intro l
  induction l with
  | nil => intro acc b s m; rfl
  | cons sc rest ih =>
      intro acc b s m
      by_cases hbr : opts.blob_file_discardable_ratio ≤ sc.score
      · rw [pass1_cons_break hbr, pass1_cons_break hbr]
      · rcases hfind : FindFile bs sc.file_number with _ | meta
        · have hfind2 : FindFile { bs with gc_score := g } sc.file_number = none := hfind
          rw [pass1_cons_none hbr hfind2, pass1_cons_none hbr hfind]
        · have hfind2 : FindFile { bs with gc_score := g } sc.file_number = some meta := hfind
          cases hc : CheckBlobFile (some meta) with
          | false =>
              rw [pass1_cons_skip hbr hfind2 hc, pass1_cons_skip hbr hfind hc]
              exact ih _ _ _ _
          | true =>
              cases s with
              | false =>
                  rw [pass1_cons_pick hbr hfind2 hc, pass1_cons_pick hbr hfind hc]
                  exact ih _ _ _ _
              | true =>
                  rw [pass1_cons_stop hbr hfind2 hc, pass1_cons_stop hbr hfind hc]

/-- C7 (confirmed): pass 1 scans the punch-hole candidates only up to
(excluding) the first one whose score reaches the discardable-ratio
threshold, and when its batch is non-empty a punch-hole plan over exactly
that batch is returned immediately — whatever the `gc_score` list holds,
so pass 2 is never executed — while every plan returned out of a run with
an empty pass-1 batch carries the merge discriminator: one invocation
never yields both kinds of plan. -/
theorem spec_C7 (opts : TitanCFOptions) (bs : BlobStorage)
    (files : List BlobFileMeta) (bsz : ℕ) (stop mcnt : Bool)
    (hp1 : pass1 opts bs bs.punch_hole_score [] 0 false false =
      some (files, bsz, stop, mcnt)) :
    pass1 opts bs bs.punch_hole_score [] 0 false false =
      pass1 opts bs (bs.punch_hole_score.takeWhile
        (fun sc => decide (sc.score < opts.blob_file_discardable_ratio))) [] 0 false false ∧
    (files ≠ [] →
      ∀ g, PickBlobGC opts { bs with gc_score := g } =
        some (some ⟨files, mcnt, true⟩)) ∧
    (files = [] → ∀ gc, PickBlobGC opts bs = some (some gc) → gc.punch_hole = false) := by
  refine ⟨pass1_takeWhile opts bs bs.punch_hole_score [] 0 false false, ?_, ?_⟩
  · intro hne g
    have hps : pass1 opts { bs with gc_score := g }
        ({ bs with gc_score := g } : BlobStorage).punch_hole_score [] 0 false false =
        some (files, bsz, stop, mcnt) := by
      show pass1 opts { bs with gc_score := g } bs.punch_hole_score [] 0 false false = _
      rw [pass1_gc_irrel]
      exact hp1
    unfold PickBlobGC
    rw [hps]
    dsimp only
    rw [if_pos hne]
  · intro hnil gc hpk
    subst hnil
    unfold PickBlobGC at hpk
    rw [hp1] at hpk
    dsimp only at hpk
    rw [if_neg (by simp)] at hpk
    rcases hp2e : pass2 opts bs bs.gc_score [] bsz 0 stop mcnt 0 with _ | res
    · rw [hp2e] at hpk
      exact absurd hpk (by simp)
    · obtain ⟨files₂, bsz₂, est₂, stop₂, mcnt₂⟩ := res
      rw [hp2e] at hpk
      dsimp only at hpk
      by_cases h1 : files₂ = []
      · rw [if_pos h1] at hpk
        simp at hpk
      · rw [if_neg h1] at hpk
        by_cases h2 : ¬ opts.in_fallback ∧
            (bsz₂ < opts.min_gc_batch_size ∧ est₂ < opts.blob_file_target_size)
        · rw [if_pos h2] at hpk
          simp at hpk
        · rw [if_neg h2] at hpk
          by_cases h3 : ¬ opts.in_fallback ∧
              (files₂.length = 1 ∧
               (files₂.getD 0 ⟨0, 0, 0, 0, FileState.kNone⟩).file_size ≤
                 opts.merge_small_file_threshold ∧
               (files₂.getD 0 ⟨0, 0, 0, 0, FileState.kNone⟩).discardable_ratio <
                 opts.blob_file_discardable_ratio)
          · rw [if_pos h3] at hpk
            simp at hpk
          · rw [if_neg h3] at hpk
            obtain rfl : (⟨files₂, mcnt₂, false⟩ : BlobGC) = gc := by simpa using hpk
            rfl

theorem spec_C7_witness :
    PickBlobGC exOpts { exStoA with gc_score := [⟨7, Rat.mk' 99 100⟩] } =
      some (some ⟨[⟨1, 500, 300, Rat.mk' 1 10, FileState.kNormal⟩], false, true⟩) :=
  (spec_C7 exOpts exStoA [⟨1, 500, 300, Rat.mk' 1 10, FileState.kNormal⟩] 500 false false
      (by decide)).2.1 (by decide) [⟨7, Rat.mk' 99 100⟩]

/-- C8 (confirmed): final admission control of the picker.  When pass 1
selected nothing and pass 2 finished, no plan is returned on an empty
batch; in non-fallback mode no plan is returned when both the cumulative
raw size and the cumulative live-data estimate are under their thresholds,
nor when the batch is a single small file whose discard ratio is below the
discardable-ratio threshold; in fallback mode those checks are skipped and
any non-empty batch becomes a plan; and a returned plan never carries an
empty file list. -/
theorem spec_C8 (opts : TitanCFOptions) (bs : BlobStorage)
    (bsz₀ : ℕ) (stop₀ mcnt₀ : Bool)
    (hp1 : pass1 opts bs bs.punch_hole_score [] 0 false false =
      some ([], bsz₀, stop₀, mcnt₀))
    (files : List BlobFileMeta) (bsz est : ℕ) (stop mcnt : Bool)
    (hp2 : pass2 opts bs bs.gc_score [] bsz₀ 0 stop₀ mcnt₀ 0 =
      some (files, bsz, est, stop, mcnt)) :
    (files = [] → PickBlobGC opts bs = some none) ∧
    (opts.in_fallback = false → bsz < opts.min_gc_batch_size →
      est < opts.blob_file_target_size → PickBlobGC opts bs = some none) ∧
    (∀ meta, opts.in_fallback = false → files = [meta] →
      meta.file_size ≤ opts.merge_small_file_threshold →
      meta.discardable_ratio < opts.blob_file_discardable_ratio →
      PickBlobGC opts bs = some none) ∧
    (opts.in_fallback = true → files ≠ [] →
      PickBlobGC opts bs = some (some ⟨files, mcnt, false⟩)) ∧
    (∀ gc, PickBlobGC opts bs = some (some gc) → gc.inputs ≠ []) := by
  have hpk : PickBlobGC opts bs =
      (if files = [] then some none
       else if ¬ opts.in_fallback ∧
           (bsz < opts.min_gc_batch_size ∧ est < opts.blob_file_target_size) then
         some none
       else if ¬ opts.in_fallback ∧
           (files.length = 1 ∧
            (files.getD 0 ⟨0, 0, 0, 0, FileState.kNone⟩).file_size ≤
              opts.merge_small_file_threshold ∧
            (files.getD 0 ⟨0, 0, 0, 0, FileState.kNone⟩).discardable_ratio <
              opts.blob_file_discardable_ratio) then
         some none
       else some (some ⟨files, mcnt, false⟩)) := by
    unfold PickBlobGC
    rw [hp1]
    dsimp only
    rw [if_neg (by simp), hp2]
  refine ⟨?_, ?_, ?_, ?_, ?_⟩
  · intro h
    rw [hpk, if_pos h]
  · intro hf hb he
    by_cases hfe : files = []
    · rw [hpk, if_pos hfe]
    · rw [hpk, if_neg hfe, if_pos ⟨by simp [hf], hb, he⟩]
  · intro meta hf hfe hsmall hratio
    subst hfe
    by_cases h2 : ¬ opts.in_fallback ∧
        (bsz < opts.min_gc_batch_size ∧ est < opts.blob_file_target_size)
    · rw [hpk, if_neg (by simp), if_pos h2]
    · rw [hpk, if_neg (by simp), if_neg h2,
          if_pos ⟨by simp [hf], rfl, hsmall, hratio⟩]
  · intro hf hne
    rw [hpk, if_neg hne, if_neg (by simp [hf]), if_neg (by simp [hf])]
  · intro gc hpkeq
    rw [hpk] at hpkeq
    by_cases h1 : files = []
    · rw [if_pos h1] at hpkeq
      simp at hpkeq
    · rw [if_neg h1] at hpkeq
      by_cases h2 : ¬ opts.in_fallback ∧
          (bsz < opts.min_gc_batch_size ∧ est < opts.blob_file_target_size)
      · rw [if_pos h2] at hpkeq
        simp at hpkeq
      · rw [if_neg h2] at hpkeq
        by_cases h3 : ¬ opts.in_fallback ∧
            (files.length = 1 ∧
             (files.getD 0 ⟨0, 0, 0, 0, FileState.kNone⟩).file_size ≤
               opts.merge_small_file_threshold ∧
             (files.getD 0 ⟨0, 0, 0, 0, FileState.kNone⟩).discardable_ratio <
               opts.blob_file_discardable_ratio)
        · rw [if_pos h3] at hpkeq
          simp at hpkeq
        · rw [if_neg h3] at hpkeq
          obtain rfl : (⟨files, mcnt, false⟩ : BlobGC) = gc := by simpa using hpkeq
          exact h1

theorem spec_C8_witness : PickBlobGC exOpts exStoC = some none :=
  (spec_C8 exOpts exStoC 0 false false (by decide)
      [⟨12, 50000, 100, Rat.mk' 1 5, FileState.kNormal⟩] 50000 100 false false
      (by decide)).2.2.1
    ⟨12, 50000, 100, Rat.mk' 1 5, FileState.kNormal⟩ (by decide) rfl (by decide) (by decide)

/-- C9 (code bug): a punch-hole candidate whose score is below the
threshold but whose `FindFile` lookup resolves to null is not skipped
gracefully — after `CheckBlobFile` fails, the skip-logging statement
evaluates `blob_file->file_number()` on the null pointer, which the
embedding marks as the `none` (undefined-behaviour) outcome of
`PickBlobGC`, refuting "such a candidate never causes a failure or crash".
A candidate whose metadata exists but is not in `Normal` state is indeed
skipped (the run over `exStoBeingGC` returns the no-plan value). -/
theorem spec_C9 :
    PickBlobGC exOpts exStoAbsent = none ∧
    FindFile exStoAbsent 1 = none ∧
    exStoAbsent.punch_hole_score = [⟨1, 0⟩] ∧
    (0 : ℚ) < exOpts.blob_file_discardable_ratio ∧
    PickBlobGC exOpts exStoBeingGC = some none :=
  ⟨by decide, rfl, rfl, by decide, by decide⟩

/-- C10 (confirmed): the scan-and-decode loop terminates whenever a block
size is configured (every hole-punch continuation advances the cursor by
`block_size_ ≥ 1`) and whenever the file holds no hole-punch markers (the
first iteration returns); with `block_size_ = 0` over a hole-punch marker
inside the record region the cursor advances by 0 bytes and the loop
makes no progress — it exhausts any amount of fuel. -/
theorem spec_C10 (f : BlobFile) (it : BlobFileIterator) :
    (1 ≤ it.block_size_ → (BlobFileIterator.PrefetchAndGet f it).isSome) ∧
    ((∀ sl ∈ f.slots, sizeField sl ≠ 0) →
      (BlobFileIterator.PrefetchAndGet f it).isSome) ∧
    (∀ sl, it.block_size_ = 0 → slotAt f it.iterate_offset_ = some sl →
      sizeField sl = 0 → it.iterate_offset_ < it.end_of_blob_record_ →
      ∀ fuel, BlobFileIterator.PrefetchAndGetGo f fuel it = none) := by
  refine ⟨?_, ?_, ?_⟩
  · intro hbs
    exact go_terminates_pos f (it.end_of_blob_record_ + 1) it (by omega) hbs
  · intro hnp
    exact go_total_nopunch f hnp it.end_of_blob_record_ it
  · intro sl hbs hsl hsz hlt
    exact go_diverges f it sl hbs hsl hsz hlt

theorem spec_C10_witness :
    (BlobFileIterator.PrefetchAndGet exF1 exItHole).isSome ∧
    BlobFileIterator.PrefetchAndGetGo exF0H 27 exItDiv = none :=
  ⟨(spec_C10 exF1 exItHole).1 (by decide),
   (spec_C10 exF0H exItDiv).2.2 Slot.hole (by decide) (by decide) (by decide)
     (by decide) 27⟩

end titandb
